import Mathlib

/-!
# ahoy: a verification development

A shallow embedding of `src/ahoy/ahoy.go` (the whole program is one file) and of the
few Go standard-library functions it calls (`strings.Replace`, `strings.Join`,
`sort.Strings`, `path.Clean`, `path.Dir`, `filepath.Join`, `filepath.Dir`),
followed by theorems about configuration discovery and command dispatch.

Conventions.
* A Go `string` is a sequence of bytes: `GoString := List Nat`.
* The operating system is an explicit environment `Env` (what `os.Stat`, `os.Getwd`,
  `ioutil.ReadFile`, `yaml.Unmarshal` and `exec.Cmd.Run` answer).
* Effects are recorded: a computation is a `Run α`, a trace of `Event`s together with an
  `Outcome` (normal return, `os.Exit`, or `panic`).
* The package-level variables of the program are the record `Globals`.
-/

namespace Ahoy

/-! ## Strings -/

/-- A Go string: a finite sequence of bytes. -/
abbrev GoString := List Nat

/-- The bytes of an ASCII literal. -/
def ascii (s : String) : GoString := s.toList.map Char.toNat

/-- The byte `/`. -/
def slash : Nat := 47

/-- The byte `.`. -/
def dot : Nat := 46

/-- Go's `a < b` on strings: byte-wise lexicographic comparison. -/
def strLess : GoString → GoString → Bool
  | [], [] => false
  | [], _ :: _ => true
  | _ :: _, [] => false
  | a :: as, b :: bs => if a < b then true else if b < a then false else strLess as bs

/-- Go's `strings.Join(elems, sep)`. -/
def stringsJoin : List GoString → GoString → GoString
  | [], _ => []
  | [a], _ => a
  | a :: b :: rest, sep => a ++ sep ++ stringsJoin (b :: rest) sep

/-- Go's `strings.Index(s, substr)`: the byte offset of the first instance of `substr`
in `s`; `none` stands for the library's `-1`. -/
def stringsIndex (substr : GoString) : GoString → Option Nat
  | [] => if substr = [] then some 0 else none
  | c :: t =>
    if substr.isPrefixOf (c :: t) then some 0
    else (stringsIndex substr t).map (· + 1)

/-- Width in bytes of the first UTF-8 encoded rune of `s`, as returned by
`utf8.DecodeRuneInString` (0 for the empty string, 1 for ASCII and for invalid input). -/
def utf8Width : GoString → Nat
  | [] => 0
  | b0 :: rest =>
    let cont (b : Nat) : Bool := 128 ≤ b ∧ b ≤ 191
    if 194 ≤ b0 ∧ b0 ≤ 223 then
      match rest with
      | b1 :: _ => if cont b1 then 2 else 1
      | _ => 1
    else if 224 ≤ b0 ∧ b0 ≤ 239 then
      let lo := if b0 = 224 then 160 else 128
      let hi := if b0 = 237 then 159 else 191
      match rest with
      | b1 :: b2 :: _ => if lo ≤ b1 ∧ b1 ≤ hi ∧ cont b2 then 3 else 1
      | _ => 1
    else if 240 ≤ b0 ∧ b0 ≤ 244 then
      let lo := if b0 = 240 then 144 else 128
      let hi := if b0 = 244 then 143 else 191
      match rest with
      | b1 :: b2 :: b3 :: _ => if lo ≤ b1 ∧ b1 ≤ hi ∧ cont b2 ∧ cont b3 then 4 else 1
      | _ => 1
    else 1

/-- Go's `utf8.RuneCountInString`, with one unit of fuel per byte. -/
def runeCount : Nat → GoString → Nat
  | 0, _ => 0
  | _, [] => 0
  | fuel + 1, b :: rest => 1 + runeCount fuel ((b :: rest).drop (utf8Width (b :: rest)))

/-- The counting loop of `strings.Count` for a non-empty `substr`:
`i := Index(s, substr); if i == -1 return n; n++; s = s[i+len(substr):]`. -/
def countLoop (substr : GoString) : Nat → GoString → Nat
  | 0, _ => 0
  | fuel + 1, s =>
    match stringsIndex substr s with
    | none => 0
    | some i => 1 + countLoop substr fuel (s.drop (i + substr.length))

/-- Go's `strings.Count(s, substr)`: the number of non-overlapping instances. -/
def stringsCount (s substr : GoString) : Nat :=
  if substr = [] then runeCount s.length s + 1
  else countLoop substr (s.length + 1) s

/-- The replacement loop of `strings.Replace`. `i` is the loop counter, `rest` is
`s[start:]`, and the result is what the loop and the final `WriteString(s[start:])`
write to the builder. -/
def replaceLoop (old new : GoString) : Nat → Nat → GoString → GoString
  | 0, _, rest => rest
  | n + 1, i, rest =>
    let j : Nat :=
      if old = [] then (if 0 < i then utf8Width rest else 0)
      else (stringsIndex old rest).getD 0
    rest.take j ++ new ++ replaceLoop old new n (i + 1) (rest.drop (j + old.length))

/-- Go's `strings.Replace(s, old, new, n)`. -/
def stringsReplace (s old new : GoString) (n : Int) : GoString :=
  if old = new ∨ n = 0 then s
  else
    let m := stringsCount s old
    if m = 0 then s
    else
      let n1 : Int := if n < 0 ∨ (m : Int) < n then (m : Int) else n
      replaceLoop old new n1.toNat 0 s

/-- The placeholder token of a command template, the eight bytes `{{args}}`. -/
def argsToken : GoString := ascii "\x7b\x7bargs\x7d\x7d"

/-! ## Effects -/

/-- What the program does to the outside world, in order. -/
inductive Event where
  /-- `os.Stat(path)`. -/
  | stat (path : GoString)
  /-- `os.Getwd()`. -/
  | getwd
  /-- `ioutil.ReadFile(path)`. -/
  | readFile (path : GoString)
  /-- `fmt.Println(operands...)` on standard output. -/
  | println (operands : List GoString)
  /-- `log.Println(operands...)` or `log.Fatal`, a log line on standard error. -/
  | logPrintln (operands : List GoString)
  /-- `fmt.Fprintln(os.Stderr, operands...)`. -/
  | stderrLn (operands : List GoString)
  /-- `exec.Cmd.Run` of `argv` with `cmd.Dir = dir`. -/
  | spawn (dir : GoString) (argv : List GoString)
  deriving DecidableEq

/-- How a computation ends. -/
inductive Outcome (α : Type) where
  /-- Normal return. -/
  | ret (a : α)
  /-- `os.Exit(code)`. -/
  | exit (code : Nat)
  /-- `panic(err)`; the Go runtime ends the process with status 2. -/
  | panicked
  deriving DecidableEq

/-- A finished computation: its trace and its outcome. -/
structure Run (α : Type) where
  trace : List Event
  outcome : Outcome α
  deriving DecidableEq

/-- Return without effect. -/
def Run.pure {α : Type} (a : α) : Run α := ⟨[], .ret a⟩

/-- Sequencing: the continuation runs only after a normal return. -/
def Run.bind {α β : Type} (m : Run α) (f : α → Run β) : Run β :=
  match m.outcome with
  | .ret a => ⟨m.trace ++ (f a).trace, (f a).outcome⟩
  | .exit c => ⟨m.trace, .exit c⟩
  | .panicked => ⟨m.trace, .panicked⟩

/-- The exit status of the process: 0 after a normal return of `main`, the argument of
`os.Exit`, and 2 after an uncaught panic. -/
def Run.exitStatus {α : Type} (r : Run α) : Nat :=
  match r.outcome with
  | .ret _ => 0
  | .exit c => c
  | .panicked => 2

/-- The child processes started, as (directory, argv) pairs, in order. -/
def spawned : List Event → List (GoString × List GoString)
  | [] => []
  | .spawn d a :: rest => (d, a) :: spawned rest
  | _ :: rest => spawned rest

/-! ## Paths (Unix) -/

/-- The backtracking loop of `path.Clean` for a `..` element, after `out.w--`:
`for out.w > dotdot && out.index(out.w) != '/' { out.w-- }`. The argument is the
current `out.w`, the result the final one. -/
def backtrackLoop (buf : GoString) (dotdot : Nat) : Nat → Nat
  | 0 => 0
  | w + 1 => if dotdot < w + 1 ∧ buf.getD (w + 1) 0 ≠ slash then backtrackLoop buf dotdot w else w + 1

/-- The main loop of `path.Clean`. `rest` is `path[r:]`, the part still to read; `out`
is the written part `buf[0:w]` of the lazy buffer; `dotdot` is the index where `..`
must stop. Every iteration reads at least one byte, so `rest.length` units of fuel
are enough. -/
def cleanLoop (rooted : Bool) : Nat → GoString → GoString → Nat → GoString
  | 0, _, out, _ => out
  | _, [], out, _ => out
  | fuel + 1, c :: t, out, dotdot =>
    if c = slash then
      -- empty path element
      cleanLoop rooted fuel t out dotdot
    else if c = dot ∧ (t = [] ∨ t.head? = some slash) then
      -- . element
      cleanLoop rooted fuel t out dotdot
    else if c = dot ∧ t.head? = some dot ∧ (t.tail = [] ∨ t.tail.head? = some slash) then
      -- .. element: remove to last /
      if dotdot < out.length then
        cleanLoop rooted fuel t.tail (out.take (backtrackLoop out dotdot (out.length - 1))) dotdot
      else if !rooted then
        let out1 := (if 0 < out.length then out ++ [slash] else out) ++ [dot, dot]
        cleanLoop rooted fuel t.tail out1 out1.length
      else
        cleanLoop rooted fuel t.tail out dotdot
    else
      -- real path element: add slash if needed, then copy the element
      let out1 :=
        if (rooted ∧ out.length ≠ 1) ∨ (!rooted ∧ out.length ≠ 0) then out ++ [slash] else out
      cleanLoop rooted fuel ((c :: t).dropWhile (· ≠ slash))
        (out1 ++ (c :: t).takeWhile (· ≠ slash)) dotdot

/-- Go's `path.Clean`; on Unix `filepath.Clean` is the same function. -/
def pathClean (path : GoString) : GoString :=
  if path = [] then [dot]
  else
    let rooted : Bool := path.head? = some slash
    let out :=
      if rooted then cleanLoop true path.length path.tail [slash] 1
      else cleanLoop false path.length path [] 0
    if out.length = 0 then [dot] else out

/-- The index of the last byte `c` of `s`, as `path.Split` finds it for `/` with
`strings.LastIndex(path, "/")`; `none` stands for the library's `-1`. -/
def lastIndexByte (c : Nat) : GoString → Option Nat
  | [] => none
  | b :: t =>
    match lastIndexByte c t with
    | some i => some (i + 1)
    | none => if b = c then some 0 else none

/-- The `dir` of Go's `path.Split`: `path[:i+1]` where `i` is the index of the last
slash, the empty prefix when there is none. `filepath.Dir` finds the same `i` with
its own loop. -/
def splitDir (path : GoString) : GoString :=
  match lastIndexByte slash path with
  | some i => path.take (i + 1)
  | none => []

/-- Go's `path.Dir`: `Clean` of the part up to the last slash. -/
def pathDir (path : GoString) : GoString := pathClean (splitDir path)

/-- Go's `filepath.Dir` on Unix (empty volume name, separator `/`). -/
def filepathDir (path : GoString) : GoString := pathClean (splitDir path)

/-- Go's `filepath.Join` on Unix: drop leading empty elements, join the rest with `/`
and `Clean` the result; all elements empty gives the empty string. -/
def filepathJoin : List GoString → GoString
  | [] => []
  | e :: rest => if e ≠ [] then pathClean (stringsJoin (e :: rest) [slash]) else filepathJoin rest

/-- The parent directory in the sense of the specification ("move to the parent
directory"): an absolute path without its last element and the slash before it, and
`/` for a path with a single element and for `/` itself. This is not a function of
the program; the walk is compared with it. -/
def specParent (d : GoString) : GoString :=
  let p := ((d.reverse.dropWhile (· ≠ slash)).tail).reverse
  if p = [] then [slash] else p

/-! ## The program -/

/-- The `Command` struct: one user-defined alias. -/
structure Command where
  Description : GoString
  Usage : GoString
  Cmd : GoString
  HideHelp : Bool
  SkipFlagParsing : Bool
  deriving DecidableEq

/-- The zero value of `Command`, what a map lookup of a missing key gives. -/
def Command.zero : Command := ⟨[], [], [], false, false⟩

/-- A Go `map[string]Command`: its entries in iteration order (which the language leaves
unspecified, so any order may occur), with distinct keys. -/
structure CommandMap where
  entries : List (GoString × Command)
  nodup : (entries.map Prod.fst).Nodup

/-- The index expression `m[name]`. -/
def CommandMap.get (m : CommandMap) (name : GoString) : Command :=
  (m.entries.lookup name).getD Command.zero

/-- The empty (nil) map. -/
def CommandMap.empty : CommandMap := ⟨[], List.nodup_nil⟩

/-- The `Config` struct. -/
structure Config where
  Version : GoString
  Commands : CommandMap

/-- The zero value of `Config`. -/
def Config.zero : Config := ⟨[], CommandMap.empty⟩

/-- A Go `error` value. -/
structure GoError where
  msg : GoString
  deriving DecidableEq

/-- How `exec.Cmd.Run` can end. -/
inductive ChildResult where
  /-- The process could not be started. -/
  | startFailed
  /-- The process ran and exited with this status. -/
  | exited (status : Nat)
  /-- The process was killed by a signal. -/
  | signaled (sig : Nat)
  deriving DecidableEq

/-- Does `cmd.Run()` return a non-nil error? It returns nil exactly when the command
started and exited with status zero (the standard streams are files, nothing is
copied). -/
def ChildResult.isErr : ChildResult → Bool
  | .exited 0 => false
  | _ => true

/-- The action of a registered subcommand (the closure stored in `cli.Command.Action`). -/
inductive Action where
  /-- The closure built by `getCommands`: `args = c.Args(); runCommand(cmdName, cmd.Cmd)`. -/
  | user (cmdName : GoString) (cmd : GoString)
  /-- The closure of the built-in `init` command. -/
  | init
  deriving DecidableEq

/-- The fields of `cli.Command` that the program sets. -/
structure CliCommand where
  Name : GoString
  Usage : GoString
  SkipFlagParsing : Bool
  HideHelp : Bool
  Action : Action
  deriving DecidableEq

/-- The package-level variables. -/
structure Globals where
  sourcedir : GoString
  sourcefile : GoString
  args : List GoString
  verbose : Bool
  deriving DecidableEq

/-- The outside world, as far as the program asks. -/
structure Env where
  /-- Does `os.Stat(path)` return a nil error? -/
  stat : GoString → Bool
  /-- The result of `os.Getwd()`. -/
  getwd : Except GoError GoString
  /-- The result of `ioutil.ReadFile(path)`: the bytes read and the error, if any. -/
  readFile : GoString → GoString × Option GoError
  /-- The result of `yaml.Unmarshal(data, &config)` on a zero `config`: the filled
  structure, or the error. -/
  yamlUnmarshal : GoString → Except GoError Config
  /-- The result of running `argv` in directory `dir`. -/
  cmdRun : GoString → List GoString → ChildResult

/-- The name of the configuration file. -/
def ahoyYml : GoString := ascii ".ahoy.yml"

/-- The loop of `getConfigPath`: `for dir != "/" && err == nil { ... }` (the outer
`err` is nil here). `none` means the fuel ran out before the loop ended. -/
def walkUp (env : Env) : Nat → GoString → Option (Run (GoString × Option GoError))
  | 0, _ => none
  | fuel + 1, dir =>
    if dir ≠ [slash] then
      let ymlpath := filepathJoin [dir, ahoyYml]
      if env.stat ymlpath then
        some ⟨[.stat ymlpath], .ret (ymlpath, none)⟩
      else
        -- Chop off the last part of the path.
        (walkUp env fuel (pathDir dir)).map
          (fun r => ⟨.stat ymlpath :: r.trace, r.outcome⟩)
    else some ⟨[], .ret ([], none)⟩

/-- The function `getConfigPath`. `none` means the fuel ran out in the loop. -/
def getConfigPath (env : Env) (fuel : Nat) (sourcefile : GoString) :
    Option (Run (GoString × Option GoError)) :=
  -- If a specific source file was set, then try to load it directly.
  if sourcefile ≠ [] then
    if env.stat sourcefile then
      some ⟨[.stat sourcefile], .ret (sourcefile, none)⟩
    else
      some ⟨[.stat sourcefile,
             .println [ascii "\n ==> Error: An ahoy config file was specified to be at",
               sourcefile, ascii "but couldn\x27t be found. Check your path.\n"]],
            .exit 1⟩
  else
    match env.getwd with
    | .error e => some ⟨[.getwd, .logPrintln [e.msg]], .exit 1⟩
    | .ok dir => (walkUp env fuel dir).map (fun r => ⟨.getwd :: r.trace, r.outcome⟩)

/-- The function `getConfig`. -/
def getConfig (env : Env) (sourcefile : GoString) : Run (Config × Option GoError) :=
  let (yamlFile, err) := env.readFile sourcefile
  let warn : List Event :=
    if err.isSome then
      [.println [ascii "\n ==> Error: An ahoy config file couldn\x27t be found in your path. You can create an example one by using \x27ahoy init\x27\n"]]
    else []
  match env.yamlUnmarshal yamlFile with
  | .error _ => ⟨.readFile sourcefile :: warn, .panicked⟩
  | .ok config => ⟨.readFile sourcefile :: warn, .ret (config, none)⟩

/-- Insertion into an ascending list. -/
def insertSorted (x : GoString) : List GoString → List GoString
  | [] => [x]
  | y :: ys => if strLess y x then y :: insertSorted x ys else x :: y :: ys

/-- Go's `sort.Strings`: the slice in increasing order. Strings that compare equal are
identical, so every correct sorting algorithm returns this same list. -/
def sortStrings (keys : List GoString) : List GoString := keys.foldr insertSorted []

/-- The function `getCommands`. -/
def getCommands (config : Config) : List CliCommand :=
  let keys := sortStrings (config.Commands.entries.map Prod.fst)
  keys.map fun name =>
    let cmd := config.Commands.get name
    { Name := name
      Usage := cmd.Usage
      SkipFlagParsing := cmd.SkipFlagParsing
      HideHelp := cmd.HideHelp
      Action := .user name cmd.Cmd }

/-- The function `runCommand`, reading the package-level variables `g`. -/
def runCommand (env : Env) (g : Globals) (name c : GoString) : Run Unit :=
  let cReplace := stringsReplace c argsToken (stringsJoin g.args (ascii " ")) 1
  let dir := g.sourcedir
  let logged : List Event :=
    if g.verbose then
      [.logPrintln [ascii "===> AHOY", name, ascii "from", g.sourcefile, ascii ":", cReplace]]
    else []
  let argv := [ascii "bash", ascii "-c", cReplace]
  if (env.cmdRun dir argv).isErr then
    ⟨logged ++ [.spawn dir argv, .stderrLn []], .exit 1⟩
  else
    ⟨logged ++ [.spawn dir argv], .ret ()⟩

/-- The built-in command that `addDefaultCommands` constructs. -/
def initCommand : CliCommand :=
  { Name := ascii "init"
    Usage := ascii "Initialize a new .ahoy.yml config file in the current directory."
    SkipFlagParsing := false
    HideHelp := false
    Action := .init }

/-- The function `addDefaultCommands`. -/
def addDefaultCommands (commands : List CliCommand) : List CliCommand :=
  commands ++ [initCommand]

/-- The action of the built-in `init` command; the child inherits the working directory
of the program (`cmd.Dir` is not set), written here as the empty directory. -/
def runInit (env : Env) : Run Unit :=
  let argv := [ascii "bash", ascii "-c",
    ascii "wget https://raw.githubusercontent.com/devinci-code/ahoy/master/examples/examples.ahoy.yml -O .ahoy.yml"]
  if (env.cmdRun [] argv).isErr then
    ⟨[.spawn [] argv, .stderrLn []], .exit 1⟩
  else
    ⟨[.spawn [] argv,
      .println [ascii "example.ahoy.yml downloaded to the current directory. You can customize it to suit your needs!"]],
     .ret ()⟩

/-- Running the `Action` of a registered command with the trailing arguments `cargs`
(what `c.Args()` returns). -/
def runAction (env : Env) (g : Globals) (cargs : List GoString) : Action → Run Unit
  | .user cmdName cmd => runCommand env { g with args := cargs } cmdName cmd
  | .init => runInit env

/-- What `main` has set up when it reaches `app.Run`: the package-level variables and
`app.Commands`. -/
structure App where
  globals : Globals
  commands : List CliCommand
  deriving DecidableEq

/-- The function `main` from after `flag.Parse()` (which has stored the `-f` and
`-verbose` flags in `g`) up to the call of `app.Run`. -/
def mainSetup (env : Env) (fuel : Nat) (g : Globals) : Option (Run App) :=
  (getConfigPath env fuel g.sourcefile).map fun located =>
    located.bind fun (sourcefile, err) =>
      if err = none then
        let g1 := { g with sourcedir := filepathDir sourcefile }
        (getConfig env sourcefile).bind fun (config, _) =>
          Run.pure ⟨g1, addDefaultCommands (getCommands config)⟩
      else Run.pure ⟨g, []⟩

/-- The function `main`: the set-up, then `app.Run(os.Args)`. The command-line library
is a parameter: `appRun` is what it does with the registered commands. -/
def main (env : Env) (fuel : Nat) (g : Globals) (appRun : App → Run Unit) :
    Option (Run Unit) :=
  (mainSetup env fuel g).map fun r => r.bind appRun

/-! ## Lemmas: traces and `strings.Replace` -/

theorem run_spawned_append (a b : List Event) : spawned (a ++ b) = spawned a ++ spawned b := by
  induction a with
  | nil => rfl
  | cons e a ih => cases e <;> simp [spawned, ih]

/-! ### `strings.Index` -/

theorem stringsIndex_none {sub : GoString} (hsub : sub ≠ []) :
    ∀ s : GoString, stringsIndex sub s = none ↔ ∀ k, ¬ sub <+: s.drop k := by
  intro s
  induction s with
  | nil =>
    simp only [stringsIndex, if_neg hsub, List.drop_nil, true_iff]
    intro k h
    exact hsub (List.eq_nil_of_prefix_nil h)
  | cons c t ih =>
    unfold stringsIndex
    by_cases hp : sub.isPrefixOf (c :: t) = true
    · simp only [hp, if_true]
      constructor
      · intro h; cases h
      · intro h
        exact absurd ( List.isPrefixOf_iff_prefix.mp hp) (by simpa using h 0)
    · simp only [hp]
      have hp' : ¬ sub <+: c :: t := fun h => hp ( List.isPrefixOf_iff_prefix.mpr h)
      simp only [Bool.false_eq_true, if_false, Option.map_eq_none', ih]
      constructor
      · intro h k
        cases k with
        | zero => simpa using hp'
        | succ k => simpa using h k
      · intro h k
        simpa using h (k + 1)

theorem stringsIndex_some {sub : GoString} :
    ∀ (s : GoString) (j : Nat), sub <+: s.drop j → j ≤ s.length → (∀ k < j, ¬ sub <+: s.drop k) →
      stringsIndex sub s = some j := by
  intro s
  induction s with
  | nil =>
    intro j hj hle _
    have hj0 : j = 0 := by simpa using hle
    subst hj0
    have : sub = [] := List.eq_nil_of_prefix_nil (by simpa using hj)
    simp [stringsIndex, this]
  | cons c t ih =>
    intro j hj hle hmin
    unfold stringsIndex
    cases j with
    | zero =>
      have : sub.isPrefixOf (c :: t) = true := List.isPrefixOf_iff_prefix.mpr (by simpa using hj)
      simp [this]
    | succ j =>
      have h0 : ¬ sub <+: c :: t := by simpa using hmin 0 (Nat.succ_pos j)
      have hp : ¬ sub.isPrefixOf (c :: t) = true := fun h => h0 ( List.isPrefixOf_iff_prefix.mp h)
      simp only [hp, if_false]
      rw [ih j (by simpa using hj) (by simpa using hle)
        (fun k hk => by simpa using hmin (k + 1) (Nat.succ_lt_succ hk))]
      rfl


theorem argsToken_ne_nil : argsToken ≠ [] := by decide

theorem argsToken_length : argsToken.length = 8 := by decide

theorem stringsReplace_absent (c new : GoString) (n : Int)
    (h : ∀ k, ¬ argsToken <+: c.drop k) : stringsReplace c argsToken new n = c := by
  have hi : stringsIndex argsToken c = none := (stringsIndex_none argsToken_ne_nil c).mpr h
  unfold stringsReplace
  by_cases h1 : argsToken = new ∨ n = 0
  · simp [h1]
  · simp only [h1, if_false]
    have : stringsCount c argsToken = 0 := by
      simp [stringsCount, argsToken_ne_nil, countLoop, hi]
    simp [this]

theorem stringsReplace_first (pre post new : GoString)
    (hmin : ∀ k < pre.length, ¬ argsToken <+: (pre ++ argsToken ++ post).drop k) :
    stringsReplace (pre ++ argsToken ++ post) argsToken new 1 = pre ++ new ++ post := by
  have hi : stringsIndex argsToken (pre ++ argsToken ++ post) = some pre.length := by
    apply stringsIndex_some _ _ _ (by simp) hmin
    simp [List.append_assoc, List.drop_append]
  unfold stringsReplace
  by_cases h1 : argsToken = new
  · simp [h1]
  · have hc : stringsCount (pre ++ argsToken ++ post) argsToken =
        1 + countLoop argsToken (pre ++ argsToken ++ post).length
          ((pre ++ argsToken ++ post).drop (pre.length + argsToken.length)) := by
      simp only [stringsCount, argsToken_ne_nil, if_false, countLoop, hi]
    have hn : ((if (1 : Int) < 0 ∨ ((stringsCount (pre ++ argsToken ++ post) argsToken : Nat) : Int) < 1
        then ((stringsCount (pre ++ argsToken ++ post) argsToken : Nat) : Int) else 1)).toNat = 1 := by
      rw [hc]
      have : ¬ ((1 : Int) < 0 ∨ ((1 + countLoop argsToken (pre ++ argsToken ++ post).length
          ((pre ++ argsToken ++ post).drop (pre.length + argsToken.length)) : Nat) : Int) < 1) := by
        intro h
        rcases h with h | h
        · exact absurd h (by decide)
        · have h2 := Int.ofNat_lt.mp (show ((1 + countLoop argsToken (pre ++ argsToken ++ post).length
            ((pre ++ argsToken ++ post).drop (pre.length + argsToken.length)) : Nat) : Int) < ((1 : Nat) : Int) from h)
          omega
      simp only [this, if_false]
      rfl
    have hm : stringsCount (pre ++ argsToken ++ post) argsToken ≠ 0 := by
      rw [hc]; omega
    simp only [h1, false_or, show ¬ ((1 : Int) = 0) by decide, if_false, hm, hn]
    simp only [replaceLoop, argsToken_ne_nil, if_false, hi, Option.getD_some]
    simp [List.append_assoc, List.take_append, List.drop_append]

/-- C1. The string that `runCommand` hands to `bash -c` is the template `c` with the
first occurrence of the token `{{args}}` replaced by the trailing arguments joined with
single spaces: the only process started has argv `bash`, `-c`, `r`; when `c` does not
contain the token, `r = c`; and when `c = pre ++ token ++ post` with no occurrence of
the token starting inside `pre`, `r = pre ++ joined ++ post`, so `post`, with every later
occurrence in it, is kept as is. -/
theorem runCommand_substitutes_first_token (env : Env) (g : Globals) (name c : GoString) :
    (spawned (runCommand env g name c).trace).map Prod.snd =
        [[ascii "bash", ascii "-c",
          stringsReplace c argsToken (stringsJoin g.args (ascii " ")) 1]] ∧
      (¬ argsToken <:+: c →
        stringsReplace c argsToken (stringsJoin g.args (ascii " ")) 1 = c) ∧
      (∀ pre post : GoString, c = pre ++ argsToken ++ post →
        (∀ k < pre.length, ¬ argsToken <+: c.drop k) →
        stringsReplace c argsToken (stringsJoin g.args (ascii " ")) 1 =
          pre ++ stringsJoin g.args (ascii " ") ++ post) := by
  refine ⟨?_, ?_, ?_⟩
  · unfold runCommand
    by_cases hv : g.verbose = true <;>
      by_cases he : (env.cmdRun g.sourcedir [ascii "bash", ascii "-c",
        stringsReplace c argsToken (stringsJoin g.args (ascii " ")) 1]).isErr = true <;>
      simp [hv, he, spawned]
  · intro hno
    apply stringsReplace_absent c _ 1
    intro k hk
    obtain ⟨t, ht⟩ := hk
    exact hno ⟨c.take k, t, by rw [List.append_assoc, ht, List.take_append_drop]⟩
  · intro pre post hc hmin
    subst hc
    exact stringsReplace_first pre post _ hmin

/-- C1, the example of the specification: the template `echo hello {{args}}` invoked with
the one argument `world` runs `echo hello world`; a second occurrence of the token
stays. -/
theorem runCommand_substitutes_first_token_witness :
    stringsReplace (ascii "echo hello \x7b\x7bargs\x7d\x7d") argsToken
        (stringsJoin [ascii "world"] (ascii " ")) 1 = ascii "echo hello world" ∧
      stringsReplace (ascii "a \x7b\x7bargs\x7d\x7d b \x7b\x7bargs\x7d\x7d") argsToken
        (stringsJoin [ascii "x", ascii "y"] (ascii " ")) 1 =
          ascii "a x y b \x7b\x7bargs\x7d\x7d" :=
  ⟨(runCommand_substitutes_first_token ⟨fun _ => false, .ok [], fun _ => ([], none),
        fun _ => .ok Config.zero, fun _ _ => .exited 0⟩ ⟨[], [], [ascii "world"], false⟩ []
        (ascii "echo hello \x7b\x7bargs\x7d\x7d")).2.2 (ascii "echo hello ") [] (by decide)
        (by decide),
    (runCommand_substitutes_first_token ⟨fun _ => false, .ok [], fun _ => ([], none),
        fun _ => .ok Config.zero, fun _ _ => .exited 0⟩ ⟨[], [], [ascii "x", ascii "y"], false⟩ []
        (ascii "a \x7b\x7bargs\x7d\x7d b \x7b\x7bargs\x7d\x7d")).2.2 (ascii "a ")
        (ascii " b \x7b\x7bargs\x7d\x7d") (by decide) (by decide)⟩

/-! ## Lemmas: string order and `sort.Strings` -/

theorem strLess_irrefl : ∀ a : GoString, strLess a a = false
  | [] => rfl
  | x :: as => by simp [strLess, strLess_irrefl as]

theorem strLess_trans : ∀ a b c : GoString, strLess a b = true → strLess b c = true →
    strLess a c = true
  | [], [], _, h, _ => by simp [strLess] at h
  | [], _ :: _, [], _, h => by simp [strLess] at h
  | [], _ :: _, _ :: _, _, _ => by simp [strLess]
  | _ :: _, [], _, h, _ => by simp [strLess] at h
  | _ :: _, _ :: _, [], _, h => by simp [strLess] at h
  | x :: as, y :: bs, z :: cs, h1, h2 => by
    simp only [strLess] at h1 h2 ⊢
    by_cases hxy : x < y
    · by_cases hyz : y < z
      · simp [lt_trans hxy hyz]
      · simp only [hyz, if_false] at h2
        by_cases hzy : z < y
        · simp [hzy] at h2
        · have : y = z := by omega
          subst this
          simp [hxy]
    · simp only [hxy, if_false] at h1
      by_cases hyx : y < x
      · simp [hyx] at h1
      · have : x = y := by omega
        subst this
        simp only [hyx, if_false] at h1
        by_cases hxz : x < z
        · simp [hxz]
        · simp only [hxz, if_false] at h2 ⊢
          by_cases hzx : z < x
          · simp [hzx] at h2
          · simp only [hzx, if_false] at h2 ⊢
            exact strLess_trans as bs cs h1 h2

theorem strLess_total : ∀ a b : GoString, strLess a b = false → strLess b a = false → a = b
  | [], [], _, _ => rfl
  | [], _ :: _, h, _ => by simp [strLess] at h
  | _ :: _, [], _, h => by simp [strLess] at h
  | x :: as, y :: bs, h1, h2 => by
    simp only [strLess] at h1 h2
    by_cases hxy : x < y
    · simp [hxy] at h1
    · by_cases hyx : y < x
      · simp [hyx] at h2
      · simp only [hxy, hyx, if_false] at h1 h2
        have : x = y := by omega
        rw [this, strLess_total as bs h1 h2]

theorem strLess_asymm (a b : GoString) (h : strLess a b = true) : strLess b a = false := by
  cases hba : strLess b a with
  | false => rfl
  | true =>
    have := strLess_trans a b a h hba
    rw [strLess_irrefl] at this
    cases this

theorem insertSorted_perm (x : GoString) (l : List GoString) :
    (insertSorted x l).Perm (x :: l) := by
  induction l with
  | nil => exact List.Perm.refl _
  | cons y ys ih =>
    unfold insertSorted
    split
    · exact (List.Perm.cons y ih).trans (List.Perm.swap x y ys)
    · exact List.Perm.refl _

theorem sortStrings_perm (l : List GoString) : (sortStrings l).Perm l := by
  induction l with
  | nil => exact List.Perm.refl _
  | cons x xs ih =>
    exact (insertSorted_perm x (sortStrings xs)).trans (List.Perm.cons x ih)

theorem insertSorted_sorted (x : GoString) (l : List GoString)
    (h : l.Pairwise (fun a b => strLess b a = false)) :
    (insertSorted x l).Pairwise (fun a b => strLess b a = false) := by
  induction l with
  | nil => simp [insertSorted]
  | cons y ys ih =>
    unfold insertSorted
    rw [List.pairwise_cons] at h
    by_cases hyx : strLess y x = true
    · simp only [hyx, if_true]
      rw [List.pairwise_cons]
      refine ⟨?_, ih h.2⟩
      intro b hb
      rcases (List.mem_cons.mp ((insertSorted_perm x ys).subset hb)) with hb | hb
      · rw [hb]; exact strLess_asymm y x hyx
      · exact h.1 b hb
    · have hyx' : strLess y x = false := by simpa using hyx
      simp only [hyx', Bool.false_eq_true, if_false]
      rw [List.pairwise_cons]
      refine ⟨?_, List.pairwise_cons.mpr h⟩
      intro b hb
      rcases List.mem_cons.mp hb with hb1 | hb1
      · rw [hb1]; exact hyx'
      · cases hbx : strLess b x with
        | false => rfl
        | true =>
          have hby := strLess_trans b x y hbx
          have hbyf := h.1 b hb1
          cases hxy : strLess x y with
          | false =>
            rw [strLess_total x y hxy hyx', hbyf] at hbx
            cases hbx
          | true =>
            rw [hby hxy] at hbyf
            cases hbyf

theorem sortStrings_sorted (l : List GoString) :
    (sortStrings l).Pairwise (fun a b => strLess b a = false) := by
  induction l with
  | nil => simp [sortStrings]
  | cons x xs ih => exact insertSorted_sorted x _ ih

theorem sorted_perm_unique : ∀ (l₁ l₂ : List GoString), l₁.Perm l₂ →
    l₁.Pairwise (fun a b => strLess b a = false) →
    l₂.Pairwise (fun a b => strLess b a = false) → l₁ = l₂ := by
  intro l₁ l₂ hp h1 h2
  haveI : IsAntisymm GoString (fun a b => strLess b a = false) :=
    ⟨fun a b hab hba => strLess_total a b hba hab⟩
  exact List.eq_of_perm_of_sorted hp h1 h2

theorem sortStrings_strict (l : List GoString) (hnd : l.Nodup) :
    (sortStrings l).Pairwise (fun a b => strLess a b = true) := by
  have hs := sortStrings_sorted l
  have hn : (sortStrings l).Nodup := (sortStrings_perm l).nodup_iff.mpr hnd
  have := List.Pairwise.and hs hn
  refine this.imp ?_
  intro a b ⟨h1, h2⟩
  cases hab : strLess a b with
  | true => rfl
  | false => exact absurd (strLess_total a b hab h1) h2

theorem lookup_perm {β : Type} : ∀ (l₁ l₂ : List (GoString × β)), l₁.Perm l₂ →
    (l₁.map Prod.fst).Nodup → ∀ k, l₁.lookup k = l₂.lookup k := by
  intro l₁ l₂ hp
  induction hp with
  | nil => intros; rfl
  | cons x _ ih =>
    intro hnd k
    obtain ⟨a, b⟩ := x
    simp only [List.map_cons, List.nodup_cons] at hnd
    simp only [List.lookup]
    split
    · rfl
    · exact ih hnd.2 k
  | swap x y l =>
    intro hnd k
    obtain ⟨a, b⟩ := x
    obtain ⟨a', b'⟩ := y
    simp only [List.map_cons, List.nodup_cons, List.mem_cons, not_or] at hnd
    simp only [List.lookup]
    cases hka : (k == a) <;> cases hka' : (k == a')
    · rfl
    · rfl
    · rfl
    · exact absurd ((eq_of_beq hka').symm.trans (eq_of_beq hka)) hnd.1.1
  | trans h1 _ ih1 ih2 =>
    intro hnd k
    rw [ih1 hnd k, ih2 ((h1.map Prod.fst).nodup_iff.mp hnd) k]

/-- C2. The names of the subcommands returned by `getCommands` are exactly the keys of
the `commands` mapping, each once, in strictly ascending byte-wise order; and the result
is the same for every iteration order of the map (any permutation of its entries), so
for every declaration order. -/
theorem getCommands_sorted_keys (config : Config) :
    ((getCommands config).map (·.Name)).Perm (config.Commands.entries.map Prod.fst) ∧
      ((getCommands config).map (·.Name)).Nodup ∧
      ((getCommands config).map (·.Name)).Pairwise (fun a b => strLess a b = true) ∧
      ∀ config2 : Config, config2.Commands.entries.Perm config.Commands.entries →
        getCommands config2 = getCommands config := by
  have hnames : (getCommands config).map (·.Name) =
      sortStrings (config.Commands.entries.map Prod.fst) := by
    simp [getCommands, Function.comp_def]
  refine ⟨?_, ?_, ?_, ?_⟩
  · rw [hnames]; exact sortStrings_perm _
  · rw [hnames]; exact (sortStrings_perm _).nodup_iff.mpr config.Commands.nodup
  · rw [hnames]; exact sortStrings_strict _ config.Commands.nodup
  · intro config2 hp
    have hk : sortStrings (config2.Commands.entries.map Prod.fst) =
        sortStrings (config.Commands.entries.map Prod.fst) :=
      sorted_perm_unique _ _
        (((sortStrings_perm _).trans (hp.map Prod.fst)).trans (sortStrings_perm _).symm)
        (sortStrings_sorted _) (sortStrings_sorted _)
    have hl : ∀ k, config2.Commands.get k = config.Commands.get k := by
      intro k
      simp only [CommandMap.get]
      rw [lookup_perm _ _ hp config2.Commands.nodup k]
    simp only [getCommands, hk, hl]

/-- C2, the example of the specification: commands declared as `zeta` then `alpha` are
listed as `alpha`, `zeta`, and so are commands declared as `alpha` then `zeta`. -/
theorem getCommands_sorted_keys_witness :
    (getCommands ⟨[], ⟨[(ascii "zeta", Command.zero), (ascii "alpha", Command.zero)],
        by decide⟩⟩).map (·.Name) = [ascii "alpha", ascii "zeta"] ∧
      getCommands ⟨[], ⟨[(ascii "alpha", Command.zero), (ascii "zeta", Command.zero)],
        by decide⟩⟩ =
      getCommands ⟨[], ⟨[(ascii "zeta", Command.zero), (ascii "alpha", Command.zero)],
        by decide⟩⟩ :=
  ⟨by decide,
   (getCommands_sorted_keys ⟨[], ⟨[(ascii "zeta", Command.zero), (ascii "alpha", Command.zero)],
        by decide⟩⟩).2.2.2 ⟨[], ⟨[(ascii "alpha", Command.zero), (ascii "zeta", Command.zero)],
        by decide⟩⟩ (List.Perm.swap _ _ _)⟩

/-! ## Dispatch: `addDefaultCommands`, the explicit path, the child process -/

/-- C5. `addDefaultCommands cs` is `cs` followed by exactly one more command, named
`init`: the length grows by one, every command of `cs` stays at its position, the new
command is the last one, and a command of `cs` that is itself named `init` is kept (no
collision check), at a position before the built-in one. -/
theorem addDefaultCommands_appends_builtin (cs : List CliCommand) :
    addDefaultCommands cs = cs ++ [initCommand] ∧
      initCommand.Name = ascii "init" ∧
      (addDefaultCommands cs).length = cs.length + 1 ∧
      (addDefaultCommands cs).take cs.length = cs ∧
      (addDefaultCommands cs).drop cs.length = [initCommand] ∧
      (∀ i, i < cs.length → (addDefaultCommands cs)[i]? = cs[i]?) ∧
      (∀ i c, cs[i]? = some c → c.Name = ascii "init" →
        (addDefaultCommands cs)[i]? = some c ∧ i < cs.length ∧
          (addDefaultCommands cs)[cs.length]? = some initCommand) := by
  refine ⟨rfl, rfl, by simp [addDefaultCommands], by simp [addDefaultCommands],
    by simp [addDefaultCommands], ?_, ?_⟩
  · intro i hi
    simp [addDefaultCommands, List.getElem?_append_left hi]
  · intro i c hc _
    have hi : i < cs.length := by
      rcases Nat.lt_or_ge i cs.length with h | h
      · exact h
      · rw [List.getElem?_eq_none h] at hc; cases hc
    refine ⟨?_, hi, ?_⟩
    · simp [addDefaultCommands, List.getElem?_append_left hi, hc]
    · simp [addDefaultCommands]

/-- C5 on a concrete list: with a user-defined `init` the result holds both, the user's
first. -/
theorem addDefaultCommands_appends_builtin_witness :
    (addDefaultCommands [⟨ascii "init", [], false, false, .user (ascii "init") (ascii "true")⟩])[0]?
        = some ⟨ascii "init", [], false, false, .user (ascii "init") (ascii "true")⟩ ∧
      0 < [(⟨ascii "init", [], false, false, .user (ascii "init") (ascii "true")⟩ : CliCommand)].length ∧
      (addDefaultCommands [⟨ascii "init", [], false, false, .user (ascii "init") (ascii "true")⟩])[
        [(⟨ascii "init", [], false, false, .user (ascii "init") (ascii "true")⟩ : CliCommand)].length]?
        = some initCommand :=
  (addDefaultCommands_appends_builtin
    [⟨ascii "init", [], false, false, .user (ascii "init") (ascii "true")⟩]).2.2.2.2.2.2 0
    ⟨ascii "init", [], false, false, .user (ascii "init") (ascii "true")⟩ rfl rfl

/-- C7. With a non-empty explicit path `p`: if `p` exists, `getConfigPath` returns
exactly `p` with a nil error and its only effect is the one `os.Stat(p)` (no `os.Getwd`,
no other path is looked at); if `p` does not exist, it prints the message and exits with
status 1, again without `os.Getwd` or any other `os.Stat`. Neither case depends on the
fuel of the upward walk, which is never entered. -/
theorem getConfigPath_explicit_path (env : Env) (fuel : Nat) (p : GoString) (hp : p ≠ []) :
    (env.stat p = true →
        getConfigPath env fuel p = some ⟨[.stat p], .ret (p, none)⟩) ∧
      (env.stat p = false →
        getConfigPath env fuel p =
          some ⟨[.stat p,
            .println [ascii "\n ==> Error: An ahoy config file was specified to be at", p,
              ascii "but couldn\x27t be found. Check your path.\n"]], .exit 1⟩) := by
  constructor
  · intro h
    simp [getConfigPath, hp, h]
  · intro h
    simp [getConfigPath, hp, h]

/-- C7 on concrete inputs: an existing `my.yml` is returned as is, a missing one ends the
process with status 1, even with no fuel for the walk and no working directory. -/
theorem getConfigPath_explicit_path_witness :
    getConfigPath ⟨fun p => p == ascii "my.yml", .error ⟨[]⟩, fun _ => ([], none),
        fun _ => .ok Config.zero, fun _ _ => .exited 0⟩ 0 (ascii "my.yml") =
        some ⟨[.stat (ascii "my.yml")], .ret (ascii "my.yml", none)⟩ ∧
      (getConfigPath ⟨fun _ => false, .error ⟨[]⟩, fun _ => ([], none),
        fun _ => .ok Config.zero, fun _ _ => .exited 0⟩ 0 (ascii "my.yml")).map
          (fun r => r.outcome) = some (.exit 1) :=
  ⟨(getConfigPath_explicit_path ⟨fun p => p == ascii "my.yml", .error ⟨[]⟩, fun _ => ([], none),
        fun _ => .ok Config.zero, fun _ _ => .exited 0⟩ 0 (ascii "my.yml") (by decide)).1
      (by decide),
   by rw [(getConfigPath_explicit_path ⟨fun _ => false, .error ⟨[]⟩, fun _ => ([], none),
        fun _ => .ok Config.zero, fun _ _ => .exited 0⟩ 0 (ascii "my.yml") (by decide)).2 rfl]
      rfl⟩

/-- C8. `runCommand` starts exactly one child process (`bash -c` of the substituted
string, in `sourcedir`). If the child fails to start, is killed, or exits with a
non-zero status, the parent then writes one blank line to standard error, as its last
effect, and exits with status 1 whatever the status of the child; if the child exits
with status 0, `runCommand` returns normally and writes no such line. -/
theorem runCommand_child_status (env : Env) (g : Globals) (name c : GoString) :
    spawned (runCommand env g name c).trace =
        [(g.sourcedir, [ascii "bash", ascii "-c",
          stringsReplace c argsToken (stringsJoin g.args (ascii " ")) 1])] ∧
      (env.cmdRun g.sourcedir [ascii "bash", ascii "-c",
          stringsReplace c argsToken (stringsJoin g.args (ascii " ")) 1] ≠ .exited 0 →
        (runCommand env g name c).outcome = .exit 1 ∧
        (runCommand env g name c).exitStatus = 1 ∧
        (runCommand env g name c).trace.getLast? = some (.stderrLn []) ∧
        (runCommand env g name c).trace.count (.stderrLn []) = 1) ∧
      (env.cmdRun g.sourcedir [ascii "bash", ascii "-c",
          stringsReplace c argsToken (stringsJoin g.args (ascii " ")) 1] = .exited 0 →
        (runCommand env g name c).outcome = .ret () ∧
        Event.stderrLn [] ∉ (runCommand env g name c).trace) := by
  have herr : ∀ r : ChildResult, r ≠ .exited 0 → r.isErr = true := by
    intro r hr
    cases r with
    | startFailed => rfl
    | signaled s => rfl
    | exited k =>
      cases k with
      | zero => exact absurd rfl hr
      | succ k => rfl
  refine ⟨?_, ?_, ?_⟩
  · unfold runCommand
    by_cases hv : g.verbose = true <;>
      by_cases he : (env.cmdRun g.sourcedir [ascii "bash", ascii "-c",
        stringsReplace c argsToken (stringsJoin g.args (ascii " ")) 1]).isErr = true <;>
      simp [hv, he, spawned]
  · intro h
    have he := herr _ h
    unfold runCommand Run.exitStatus
    by_cases hv : g.verbose = true <;> simp [hv, he, List.count_cons]
  · intro h
    unfold runCommand
    by_cases hv : g.verbose = true <;> simp [hv, h, ChildResult.isErr]

/-- C8 on a concrete run: a child that exits with status 3 makes the parent exit with
status 1. -/
theorem runCommand_child_status_witness :
    (runCommand ⟨fun _ => false, .ok [], fun _ => ([], none), fun _ => .ok Config.zero,
        fun _ _ => .exited 3⟩ ⟨ascii "/a", [], [], false⟩ (ascii "fail") (ascii "exit 3")).exitStatus
      = 1 :=
  ((runCommand_child_status ⟨fun _ => false, .ok [], fun _ => ([], none),
      fun _ => .ok Config.zero, fun _ _ => .exited 3⟩ ⟨ascii "/a", [], [], false⟩ (ascii "fail")
      (ascii "exit 3")).2.1 (by decide)).2.1

/-! ## Lemmas: `path.Clean` on rooted paths -/

theorem dropWhile_length_le (p : Nat → Bool) : ∀ l : GoString, (l.dropWhile p).length ≤ l.length
  | [] => by simp
  | x :: xs => by
    rw [List.dropWhile_cons]
    split
    · exact Nat.le_succ_of_le (dropWhile_length_le p xs)
    · exact Nat.le_refl _

theorem cleanLoop_nil (rooted : Bool) (fuel : Nat) (out : GoString) (dd : Nat) :
    cleanLoop rooted fuel [] out dd = out := by
  cases fuel <;> rfl

/-- One iteration of the loop of `path.Clean` on a rooted path, in equational form. -/
theorem cleanLoop_cons (fuel : Nat) (c : Nat) (t out : GoString) :
    cleanLoop true (fuel + 1) (c :: t) out 1 =
      if c = slash then cleanLoop true fuel t out 1
      else if c = dot ∧ (t = [] ∨ t.head? = some slash) then cleanLoop true fuel t out 1
      else if c = dot ∧ t.head? = some dot ∧ (t.tail = [] ∨ t.tail.head? = some slash) then
        (if 1 < out.length then
          cleanLoop true fuel t.tail (out.take (backtrackLoop out 1 (out.length - 1))) 1
        else cleanLoop true fuel t.tail out 1)
      else
        cleanLoop true fuel ((c :: t).dropWhile (· ≠ slash))
          ((if out.length ≠ 1 then out ++ [slash] else out) ++
            (c :: t).takeWhile (· ≠ slash)) 1 := by
  rw [cleanLoop]
  simp only [Bool.not_true, Bool.false_eq_true, if_false, true_and, false_and, or_false]

theorem cleanLoop_fuel : ∀ (fuel1 fuel2 : Nat) (rest out : GoString),
    rest.length ≤ fuel1 → rest.length ≤ fuel2 →
      cleanLoop true fuel1 rest out 1 = cleanLoop true fuel2 rest out 1 := by
  intro fuel1
  induction fuel1 with
  | zero =>
    intro fuel2 rest out h1 _
    have : rest = [] := List.length_eq_zero.mp (Nat.le_zero.mp h1)
    subst this
    rw [cleanLoop_nil, cleanLoop_nil]
  | succ f1 ih =>
    intro fuel2 rest out h1 h2
    cases rest with
    | nil => rw [cleanLoop_nil, cleanLoop_nil]
    | cons c t =>
      cases fuel2 with
      | zero => simp at h2
      | succ f2 =>
        simp only [List.length_cons, Nat.add_le_add_iff_right] at h1 h2
        have htl : t.tail.length ≤ t.length := by simp
        rw [cleanLoop_cons, cleanLoop_cons]
        by_cases hc1 : c = slash
        · simp only [hc1, if_true]
          exact ih f2 t out h1 h2
        · simp only [hc1, if_false]
          have hdw' : ((c :: t).dropWhile (· ≠ slash)).length ≤ t.length := by
            rw [List.dropWhile_cons]
            simp only [ne_eq, hc1, not_false_eq_true, decide_True, if_true]
            exact dropWhile_length_le _ t
          rw [ih f2 t out h1 h2,
            ih f2 t.tail out (le_trans htl h1) (le_trans htl h2),
            ih f2 t.tail (out.take (backtrackLoop out 1 (out.length - 1)))
              (le_trans htl h1) (le_trans htl h2),
            ih f2 ((c :: t).dropWhile (· ≠ slash)) _ (le_trans hdw' h1) (le_trans hdw' h2)]

theorem takeWhile_append_slash : ∀ a b : GoString,
    (a ++ slash :: b).takeWhile (· ≠ slash) = a.takeWhile (· ≠ slash)
  | [], b => by simp [List.takeWhile_cons]
  | x :: a, b => by
    simp only [List.cons_append, List.takeWhile_cons]
    rw [takeWhile_append_slash a b]

theorem dropWhile_append_slash : ∀ a b : GoString,
    (a ++ slash :: b).dropWhile (· ≠ slash) = a.dropWhile (· ≠ slash) ++ slash :: b
  | [], b => by simp [List.dropWhile_cons]
  | x :: a, b => by
    simp only [List.cons_append, List.dropWhile_cons]
    rw [dropWhile_append_slash a b]
    split <;> rfl

theorem head_append_slash (a b : GoString) :
    (a ++ slash :: b = [] ∨ (a ++ slash :: b).head? = some slash) ↔
      (a = [] ∨ a.head? = some slash) := by
  cases a <;> simp

/-- Reading `a`, a slash and then `b` is reading `a` and then `b`: the loop of
`path.Clean` works element by element. -/
theorem cleanLoop_append : ∀ (fuel : Nat) (a b out : GoString),
    a.length + 1 + b.length ≤ fuel →
      cleanLoop true fuel (a ++ slash :: b) out 1 =
        cleanLoop true b.length b (cleanLoop true a.length a out 1) 1 := by
  intro fuel
  induction fuel with
  | zero => intro a b out h; omega
  | succ f ih =>
    intro a b out h
    cases a with
    | nil =>
      simp only [List.nil_append, cleanLoop_cons, if_true, cleanLoop_nil]
      exact cleanLoop_fuel _ _ _ _ (by simp at h; omega) (Nat.le_refl _)
    | cons c a1 =>
      simp only [List.length_cons] at h
      simp only [List.cons_append, List.length_cons]
      rw [cleanLoop_cons, cleanLoop_cons]
      by_cases hc1 : c = slash
      · simp only [hc1, if_true]
        exact ih a1 b out (by omega)
      · simp only [hc1, if_false]
        simp only [head_append_slash]
        by_cases hc2 : c = dot ∧ (a1 = [] ∨ a1.head? = some slash)
        · simp only [hc2, and_self, if_true]
          exact ih a1 b out (by omega)
        · simp only [hc2, if_false]
          cases a1 with
          | nil =>
            have hsd : slash ≠ dot := by decide
            have hc : c ≠ dot := fun h => hc2 ⟨h, Or.inl rfl⟩
            simp only [List.nil_append, List.head?_cons, Option.some.injEq, hsd, false_and,
              and_false, if_false, List.head?_nil, List.takeWhile_cons, List.dropWhile_cons,
              ne_eq, hc1, not_false_eq_true, decide_True, if_true, decide_False, not_true_eq_false,
              Bool.false_eq_true, List.takeWhile_nil, List.dropWhile_nil, cleanLoop_nil,
              List.length_nil]
            rw [cleanLoop_fuel f (b.length + 1) (slash :: b) _ (by simp at h ⊢; omega) (by simp),
              cleanLoop_cons]
            simp only [if_true, hc, false_and, if_false]
          | cons x xs =>
            simp only [List.length_cons] at h
            simp only [List.cons_append, List.head?_cons, List.tail_cons, head_append_slash]
            by_cases hc3 : c = dot ∧ some x = some dot ∧ (xs = [] ∨ xs.head? = some slash)
            · simp only [hc3, and_self, if_true]
              have hxs : xs.length ≤ (x :: xs).length := by simp
              split
              · rw [ih xs b _ (by omega)]
                congr 1
                exact cleanLoop_fuel _ _ _ _ (Nat.le_refl _) hxs
              · rw [ih xs b _ (by omega)]
                congr 1
                exact cleanLoop_fuel _ _ _ _ (Nat.le_refl _) hxs
            · simp only [hc3, if_false]
              have e1 : c :: x :: (xs ++ slash :: b) = (c :: x :: xs) ++ slash :: b := rfl
              rw [e1, takeWhile_append_slash, dropWhile_append_slash]
              have hdl : ((c :: x :: xs).dropWhile (· ≠ slash)).length ≤ (x :: xs).length := by
                rw [List.dropWhile_cons]
                simp only [ne_eq, hc1, not_false_eq_true, decide_True, if_true]
                exact dropWhile_length_le _ _
              rw [ih _ b _ (by simp only [List.length_cons] at hdl; omega)]
              congr 1
              exact cleanLoop_fuel _ _ _ _ (Nat.le_refl _) hdl

theorem backtrackLoop_le (buf : GoString) (dd : Nat) : ∀ w, backtrackLoop buf dd w ≤ w
  | 0 => by simp [backtrackLoop]
  | w + 1 => by
    unfold backtrackLoop
    split
    · exact Nat.le_succ_of_le (backtrackLoop_le buf dd w)
    · exact Nat.le_refl _

theorem backtrackLoop_ge (buf : GoString) (dd : Nat) : ∀ w, dd ≤ w → dd ≤ backtrackLoop buf dd w
  | 0 => by simp [backtrackLoop]
  | w + 1 => by
    intro h
    unfold backtrackLoop
    split
    · rename_i hc
      exact backtrackLoop_ge buf dd w (Nat.lt_succ_iff.mp hc.1)
    · exact h

theorem dropWhile_head (l : GoString) :
    l.dropWhile (· ≠ slash) = [] ∨ (l.dropWhile (· ≠ slash)).head? = some slash := by
  induction l with
  | nil => simp
  | cons x xs ih =>
    rw [List.dropWhile_cons]
    by_cases hx : x = slash
    · simp [hx]
    · simpa [hx] using ih

/-- The loop of `path.Clean` keeps the leading slash of a rooted path. -/
theorem cleanLoop_rooted : ∀ (fuel : Nat) (rest out : GoString), out.head? = some slash →
    (cleanLoop true fuel rest out 1).head? = some slash := by
  intro fuel
  induction fuel with
  | zero => intro rest out h; simpa [cleanLoop] using h
  | succ f ih =>
    intro rest out h
    cases rest with
    | nil => simpa [cleanLoop_nil] using h
    | cons c t =>
      rw [cleanLoop_cons]
      split
      · exact ih _ _ h
      · split
        · exact ih _ _ h
        · split
          · split
            · rename_i hlen
              apply ih
              rw [List.head?_take]
              have := backtrackLoop_ge out 1 (out.length - 1) (by omega)
              rw [if_neg (by omega)]
              exact h
            · exact ih _ _ h
          · apply ih
            cases out with
            | nil => simp at h
            | cons o os =>
              simp only [List.head?_cons] at h
              split <;> simp [h]

/-- The loop of `path.Clean` never writes more than it has read: on a rooted path the
result is at most as long as what was written before plus what is still to read, plus
one for a separator that is still owed. -/
theorem cleanLoop_length : ∀ (fuel : Nat) (rest out : GoString), rest.length ≤ fuel →
    1 ≤ out.length →
    (cleanLoop true fuel rest out 1).length ≤ out.length + rest.length +
      (if out.length = 1 ∨ rest = [] ∨ rest.head? = some slash then 0 else 1) := by
  intro fuel
  induction fuel with
  | zero =>
    intro rest out h _
    have : rest = [] := List.length_eq_zero.mp (Nat.le_zero.mp h)
    subst this
    simp [cleanLoop]
  | succ f ih =>
    intro rest out h hout
    cases rest with
    | nil => simp [cleanLoop_nil]
    | cons c t =>
      simp only [List.length_cons, Nat.add_le_add_iff_right] at h
      have htl : t.tail.length ≤ t.length := by simp
      rw [cleanLoop_cons]
      by_cases hc1 : c = slash
      · simp only [hc1, if_true]
        have := ih t out h hout
        have hle : (if out.length = 1 ∨ t = [] ∨ t.head? = some slash then 0 else 1) ≤ 1 := by
          split <;> omega
        simp only [List.length_cons]
        omega
      · simp only [hc1, if_false]
        by_cases hc2 : c = dot ∧ (t = [] ∨ t.head? = some slash)
        · simp only [hc2, and_self, if_true]
          have := ih t out h hout
          rw [if_pos (Or.inr hc2.2)] at this
          simp only [List.length_cons]
          omega
        · simp only [hc2, if_false]
          by_cases hc3 : c = dot ∧ t.head? = some dot ∧ (t.tail = [] ∨ t.tail.head? = some slash)
          · simp only [hc3, and_self, if_true]
            split
            · rename_i hlen
              have hb := backtrackLoop_le out 1 (out.length - 1)
              have hg := backtrackLoop_ge out 1 (out.length - 1) (by omega)
              have hlt : (out.take (backtrackLoop out 1 (out.length - 1))).length =
                  backtrackLoop out 1 (out.length - 1) := by
                rw [List.length_take]; omega
              have := ih t.tail (out.take (backtrackLoop out 1 (out.length - 1)))
                (le_trans htl h) (by omega)
              rw [if_pos (Or.inr hc3.2.2)] at this
              simp only [List.length_cons]
              omega
            · have := ih t.tail out (le_trans htl h) hout
              rw [if_pos (Or.inr hc3.2.2)] at this
              simp only [List.length_cons]
              omega
          · simp only [hc3, if_false]
            have hdl : ((c :: t).dropWhile (· ≠ slash)).length ≤ t.length := by
              rw [List.dropWhile_cons]
              simp only [ne_eq, hc1, not_false_eq_true, decide_True, if_true]
              exact dropWhile_length_le _ _
            have hsum : ((c :: t).takeWhile (· ≠ slash)).length +
                ((c :: t).dropWhile (· ≠ slash)).length = t.length + 1 := by
              rw [← List.length_append, List.takeWhile_append_dropWhile]; rfl
            have := ih ((c :: t).dropWhile (· ≠ slash))
              ((if out.length ≠ 1 then out ++ [slash] else out) ++
                (c :: t).takeWhile (· ≠ slash)) (le_trans hdl h)
              (by rw [List.length_append]; split <;> simp <;> omega)
            rw [if_pos (Or.inr (dropWhile_head (c :: t)))] at this
            simp only [List.length_cons]
            by_cases h1 : out.length = 1
            · have e1 : (if out.length ≠ 1 then out ++ [slash] else out) = out :=
                if_neg (by simp [h1])
              rw [e1] at this ⊢
              rw [if_pos (Or.inl h1)]
              rw [List.length_append] at this
              omega
            · have e1 : (if out.length ≠ 1 then out ++ [slash] else out) = out ++ [slash] :=
                if_pos h1
              rw [e1] at this ⊢
              rw [if_neg (by simp [h1, hc1])]
              simp only [List.length_append, List.length_singleton] at this
              omega

/-- On a rooted path `path.Clean` is its loop started after the leading slash. -/
theorem pathClean_rooted (r : GoString) :
    pathClean (slash :: r) = cleanLoop true r.length r [slash] 1 := by
  have hfuel : cleanLoop true (slash :: r).length r [slash] 1 =
      cleanLoop true r.length r [slash] 1 :=
    cleanLoop_fuel _ _ _ _ (by simp) (Nat.le_refl _)
  have hroot := cleanLoop_rooted r.length r [slash] rfl
  have hne : (cleanLoop true r.length r [slash] 1).length ≠ 0 := by
    intro h0
    rw [List.length_eq_zero.mp h0] at hroot
    cases hroot
  simp only [pathClean, List.head?_cons, List.tail_cons, decide_True, if_true, hfuel, hne,
    if_false, reduceCtorEq]

theorem pathClean_rooted_head (r : GoString) : (pathClean (slash :: r)).head? = some slash := by
  rw [pathClean_rooted]
  exact cleanLoop_rooted _ _ _ rfl

theorem pathClean_rooted_length (r : GoString) :
    (pathClean (slash :: r)).length ≤ (slash :: r).length := by
  rw [pathClean_rooted]
  have := cleanLoop_length r.length r [slash] (Nat.le_refl _) (by simp)
  simp only [List.length_singleton, true_or, if_true] at this
  simp only [List.length_cons]
  omega

/-- A trailing slash does not change the result of `path.Clean` on a rooted path. -/
theorem pathClean_trailing_slash (x : GoString) :
    pathClean (slash :: (x ++ [slash])) = pathClean (slash :: x) := by
  rw [pathClean_rooted, pathClean_rooted,
    cleanLoop_fuel _ (x.length + 1 + ([] : GoString).length) (x ++ [slash]) _ (by simp) (by simp),
    cleanLoop_append _ x [] _ (Nat.le_refl _), cleanLoop_nil]

theorem lastIndexByte_none : ∀ y : GoString, slash ∉ y → lastIndexByte slash y = none
  | [], _ => rfl
  | b :: t, h => by
    simp only [List.mem_cons, not_or] at h
    simp only [lastIndexByte, lastIndexByte_none t h.2]
    exact if_neg (fun hb => h.1 hb.symm)

theorem lastIndexByte_append : ∀ x y : GoString, slash ∉ y →
    lastIndexByte slash (x ++ slash :: y) = some x.length
  | [], y, h => by simp [lastIndexByte, lastIndexByte_none y h]
  | b :: x, y, h => by
    simp [lastIndexByte, lastIndexByte_append x y h]

theorem splitDir_append (x y : GoString) (h : slash ∉ y) :
    splitDir (x ++ slash :: y) = x ++ [slash] := by
  simp only [splitDir, lastIndexByte_append x y h]
  rw [show x ++ slash :: y = (x ++ [slash]) ++ y by simp]
  rw [List.take_left' (by simp)]

theorem splitDir_no_slash (y : GoString) (h : slash ∉ y) : splitDir y = [] := by
  simp [splitDir, lastIndexByte_none y h]

theorem last_slash_decomp : ∀ p : GoString, slash ∈ p →
    ∃ x y, p = x ++ slash :: y ∧ slash ∉ y
  | [], h => by simp at h
  | b :: t, h => by
    by_cases ht : slash ∈ t
    · obtain ⟨x, y, hxy, hy⟩ := last_slash_decomp t ht
      exact ⟨b :: x, y, by simp [hxy], hy⟩
    · have hb : slash = b := by
        rcases List.mem_cons.mp h with h1 | h1
        · exact h1
        · exact absurd h1 ht
      exact ⟨[], t, by simp [hb], ht⟩

/-- The parent of a rooted path other than `/`, as `path.Dir` computes it, is again
rooted and strictly shorter. -/
theorem pathDir_rooted (d : GoString) (h : d.head? = some slash) (hne : d ≠ [slash]) :
    (pathDir d).head? = some slash ∧ (pathDir d).length < d.length := by
  cases d with
  | nil => simp at h
  | cons b r =>
    simp only [List.head?_cons, Option.some.injEq] at h
    subst h
    obtain ⟨x, y, hxy, hy⟩ := last_slash_decomp (slash :: r) (by simp)
    have hsplit : splitDir (slash :: r) = x ++ [slash] := by
      rw [hxy]; exact splitDir_append x y hy
    cases x with
    | nil =>
      simp only [List.nil_append] at hsplit hxy
      have hr : r ≠ [] := fun hr => hne (by rw [hr])
      simp only [pathDir, hsplit]
      refine ⟨by decide, ?_⟩
      have : 0 < r.length := List.length_pos.mpr hr
      have h1 : (pathClean [slash]).length = 1 := by decide
      simp only [h1, List.length_cons]
      omega
    | cons x0 x1 =>
      have hx0 : x0 = slash := by
        simp only [List.cons_append, List.cons.injEq] at hxy
        exact hxy.1.symm
      subst hx0
      simp only [pathDir, hsplit, List.cons_append, pathClean_trailing_slash]
      refine ⟨pathClean_rooted_head x1, ?_⟩
      have h1 := pathClean_rooted_length x1
      have h2 : (slash :: r).length = (slash :: x1).length + 1 + y.length := by
        rw [hxy]; simp; omega
      omega

/-! ## Lemmas: the upward walk -/

/-- With enough fuel the walk ends, and then its result does not depend on the fuel. -/
theorem walkUp_fuel (env : Env) : ∀ (fuel1 fuel2 : Nat) (d : GoString),
    d.head? = some slash → d.length ≤ fuel1 → d.length ≤ fuel2 →
      walkUp env fuel1 d = walkUp env fuel2 d ∧ (walkUp env fuel1 d).isSome = true := by
  intro fuel1
  induction fuel1 with
  | zero =>
    intro fuel2 d h h1 _
    have : d = [] := List.length_eq_zero.mp (Nat.le_zero.mp h1)
    rw [this] at h
    cases h
  | succ f1 ih =>
    intro fuel2 d h h1 h2
    cases fuel2 with
    | zero =>
      have : d = [] := List.length_eq_zero.mp (Nat.le_zero.mp h2)
      rw [this] at h
      cases h
    | succ f2 =>
      unfold walkUp
      by_cases hd : d = [slash]
      · simp [hd]
      · simp only [ne_eq, hd, not_false_eq_true, if_true]
        by_cases hs : env.stat (filepathJoin [d, ahoyYml]) = true
        · simp [hs]
        · simp only [hs, Bool.false_eq_true, if_false]
          have hp := pathDir_rooted d h hd
          have := ih f2 (pathDir d) hp.1 (by omega) (by omega)
          rw [this.1]
          refine ⟨rfl, ?_⟩
          rw [← this.1]
          simpa using this.2

/-- The walk returns the first hit: if the `k`-th parent is the first directory of the
chain whose `.ahoy.yml` exists, and the root is not reached before, the walk stats
exactly the candidates of parents `0..k` and returns the last of them. -/
theorem walkUp_found (env : Env) : ∀ (k fuel : Nat) (d : GoString),
    d.head? = some slash → d.length ≤ fuel →
    (∀ j, j ≤ k → pathDir^[j] d ≠ [slash]) →
    (∀ j, j < k → env.stat (filepathJoin [pathDir^[j] d, ahoyYml]) = false) →
    env.stat (filepathJoin [pathDir^[k] d, ahoyYml]) = true →
      walkUp env fuel d =
        some ⟨(List.range (k + 1)).map (fun j => .stat (filepathJoin [pathDir^[j] d, ahoyYml])),
          .ret (filepathJoin [pathDir^[k] d, ahoyYml], none)⟩ := by
  intro k
  induction k with
  | zero =>
    intro fuel d h hf hroot _ hhit
    cases fuel with
    | zero =>
      have : d = [] := List.length_eq_zero.mp (Nat.le_zero.mp hf)
      rw [this] at h
      cases h
    | succ f =>
      have hd : d ≠ [slash] := hroot 0 (Nat.le_refl _)
      simp only [Function.iterate_zero, id_eq] at hhit
      simp [walkUp, hd, hhit, List.range_succ]
  | succ k ih =>
    intro fuel d h hf hroot hmiss hhit
    cases fuel with
    | zero =>
      have : d = [] := List.length_eq_zero.mp (Nat.le_zero.mp hf)
      rw [this] at h
      cases h
    | succ f =>
      have hd : d ≠ [slash] := hroot 0 (Nat.zero_le _)
      have hs : env.stat (filepathJoin [d, ahoyYml]) = false := hmiss 0 (Nat.succ_pos _)
      have hp := pathDir_rooted d h hd
      have := ih f (pathDir d) hp.1 (by omega)
        (fun j hj => by
          have := hroot (j + 1) (Nat.succ_le_succ hj)
          rwa [Function.iterate_succ_apply] at this)
        (fun j hj => by
          have := hmiss (j + 1) (Nat.succ_lt_succ hj)
          rwa [Function.iterate_succ_apply] at this)
        (by rwa [Function.iterate_succ_apply] at hhit)
      unfold walkUp
      simp only [ne_eq, hd, not_false_eq_true, if_true, hs, Bool.false_eq_true, if_false, this,
        Option.map_some']
      rw [List.range_succ_eq_map (k + 1)]
      simp [Function.iterate_succ_apply, Function.comp_def]

/-- When no directory of the chain below the root has an `.ahoy.yml`, the walk stats
the candidates of the directories below the root only, and returns the empty path. -/
theorem walkUp_not_found (env : Env) : ∀ (fuel : Nat) (d : GoString),
    d.head? = some slash → d.length ≤ fuel →
    (∀ j, j < d.length → pathDir^[j] d ≠ [slash] →
      env.stat (filepathJoin [pathDir^[j] d, ahoyYml]) = false) →
    ∃ n, n < d.length ∧ pathDir^[n] d = [slash] ∧ (∀ j, j < n → pathDir^[j] d ≠ [slash]) ∧
      walkUp env fuel d =
        some ⟨(List.range n).map (fun j => .stat (filepathJoin [pathDir^[j] d, ahoyYml])),
          .ret ([], none)⟩ := by
  intro fuel
  induction fuel with
  | zero =>
    intro d h hf _
    have : d = [] := List.length_eq_zero.mp (Nat.le_zero.mp hf)
    rw [this] at h
    cases h
  | succ f ih =>
    intro d h hf hmiss
    have hpos : 0 < d.length := by
      cases d with
      | nil => cases h
      | cons _ _ => simp
    by_cases hd : d = [slash]
    · refine ⟨0, hpos, by simpa using hd, by simp, ?_⟩
      simp [walkUp, hd]
    · have hs : env.stat (filepathJoin [d, ahoyYml]) = false := hmiss 0 hpos (by simpa using hd)
      have hp := pathDir_rooted d h hd
      obtain ⟨n, hn, hroot, hbelow, hw⟩ := ih (pathDir d) hp.1 (by omega)
        (fun j hj hr => by
          have := hmiss (j + 1) (by omega)
          rw [Function.iterate_succ_apply] at this
          exact this hr)
      refine ⟨n + 1, by omega, by rwa [Function.iterate_succ_apply], ?_, ?_⟩
      · intro j hj
        cases j with
        | zero => simpa using hd
        | succ j =>
          rw [Function.iterate_succ_apply]
          exact hbelow j (by omega)
      · unfold walkUp
        simp only [ne_eq, hd, not_false_eq_true, if_true, hs, Bool.false_eq_true, if_false, hw,
          Option.map_some']
        rw [List.range_succ_eq_map n]
        simp [Function.iterate_succ_apply, Function.comp_def]

/-! ## Lemmas: clean paths -/

theorem takeWhile_nil_iff (l : GoString) :
    l.takeWhile (· ≠ slash) = [] ↔ (l = [] ∨ l.head? = some slash) := by
  cases l with
  | nil => simp
  | cons x xs =>
    rw [List.takeWhile_cons]
    by_cases hx : x = slash <;> simp [hx]

theorem takeWhile_head_ne_slash (l : GoString) : (l.takeWhile (· ≠ slash)).head? ≠ some slash := by
  cases l with
  | nil => simp
  | cons x xs =>
    rw [List.takeWhile_cons]
    by_cases hx : x = slash <;> simp [hx]

theorem takeWhile_takeWhile (l : GoString) :
    (l.takeWhile (· ≠ slash)).takeWhile (· ≠ slash) = l.takeWhile (· ≠ slash) := by
  induction l with
  | nil => rfl
  | cons x xs ih =>
    rw [List.takeWhile_cons]
    by_cases hx : x = slash
    · simp [hx]
    · simp only [ne_eq, hx, not_false_eq_true, decide_True, if_true, List.takeWhile_cons, ih]

theorem dropWhile_takeWhile (l : GoString) :
    (l.takeWhile (· ≠ slash)).dropWhile (· ≠ slash) = [] := by
  induction l with
  | nil => rfl
  | cons x xs ih =>
    rw [List.takeWhile_cons]
    by_cases hx : x = slash
    · simp [hx]
    · simp only [ne_eq, hx, not_false_eq_true, decide_True, if_true, List.dropWhile_cons, ih]

/-- Reading one real path element (the bytes up to the next slash, when they are not
empty, `.` or `..`) appends it to what is written, after a separating slash unless only
the root is written. -/
theorem cleanLoop_element (fuel : Nat) (c : Nat) (t out : GoString)
    (hfuel : ((c :: t).takeWhile (· ≠ slash)).length ≤ fuel)
    (h1 : c ≠ slash)
    (h2 : ¬ (c = dot ∧ (t = [] ∨ t.head? = some slash)))
    (h3 : ¬ (c = dot ∧ t.head? = some dot ∧ (t.tail = [] ∨ t.tail.head? = some slash))) :
    cleanLoop true fuel ((c :: t).takeWhile (· ≠ slash)) out 1 =
      (if out.length ≠ 1 then out ++ [slash] else out) ++ (c :: t).takeWhile (· ≠ slash) := by
  have he : (c :: t).takeWhile (· ≠ slash) = c :: t.takeWhile (· ≠ slash) := by
    rw [List.takeWhile_cons]; simp [h1]
  rw [he] at hfuel ⊢
  cases fuel with
  | zero => simp at hfuel
  | succ f =>
    rw [cleanLoop_cons]
    have h2' : ¬ (c = dot ∧ (t.takeWhile (· ≠ slash) = [] ∨
        (t.takeWhile (· ≠ slash)).head? = some slash)) := by
      rintro ⟨hc, h | h⟩
      · exact h2 ⟨hc, (takeWhile_nil_iff t).mp h⟩
      · exact takeWhile_head_ne_slash t h
    have h3' : ¬ (c = dot ∧ (t.takeWhile (· ≠ slash)).head? = some dot ∧
        ((t.takeWhile (· ≠ slash)).tail = [] ∨
          (t.takeWhile (· ≠ slash)).tail.head? = some slash)) := by
      rintro ⟨hc, hd, h⟩
      cases t with
      | nil => simp at hd
      | cons x xs =>
        rw [List.takeWhile_cons] at hd h
        by_cases hx : x = slash
        · simp [hx] at hd
        · simp only [ne_eq, hx, not_false_eq_true, decide_True, if_true, List.head?_cons,
            List.tail_cons] at hd h
          refine h3 ⟨hc, by simpa using hd, ?_⟩
          rcases h with h | h
          · exact (takeWhile_nil_iff xs).mp h
          · exact absurd h (takeWhile_head_ne_slash xs)
    simp only [h1, h2', h3', if_false]
    rw [← he, takeWhile_takeWhile, dropWhile_takeWhile, cleanLoop_nil]

theorem cleanLoop_ahoyYml (fuel : Nat) (out : GoString) (hfuel : ahoyYml.length ≤ fuel) :
    cleanLoop true fuel ahoyYml out 1 =
      (if out.length ≠ 1 then out ++ [slash] else out) ++ ahoyYml := by
  have e : ahoyYml = (46 :: [97, 104, 111, 121, 46, 121, 109, 108]).takeWhile (· ≠ slash) := by
    decide
  rw [e] at hfuel ⊢
  exact cleanLoop_element fuel 46 _ out hfuel (by decide) (by decide) (by decide)

/-- What `filepath.Join(d, ".ahoy.yml")` is for a rooted `d`: the cleaned `d`, a slash
unless that is the root, and the file name. -/
theorem filepathJoin_rooted (r : GoString) :
    filepathJoin [slash :: r, ahoyYml] =
      (if (pathClean (slash :: r)).length ≠ 1 then pathClean (slash :: r) ++ [slash]
        else pathClean (slash :: r)) ++ ahoyYml := by
  have e : stringsJoin [slash :: r, ahoyYml] [slash] = slash :: (r ++ slash :: ahoyYml) := by
    simp [stringsJoin]
  simp only [filepathJoin, ne_eq, reduceCtorEq, not_false_eq_true, if_true, e]
  rw [pathClean_rooted, pathClean_rooted,
    cleanLoop_fuel _ (r.length + 1 + ahoyYml.length) _ _ (by simp) (by simp; omega),
    cleanLoop_append _ r ahoyYml _ (Nat.le_refl _),
    cleanLoop_ahoyYml _ _ (Nat.le_refl _)]

/-- The directory part of `filepath.Join(d, ".ahoy.yml")` for a rooted `d` is the
cleaned `d`, cleaned once more. -/
theorem filepathDir_join_rooted (r : GoString) :
    filepathDir (filepathJoin [slash :: r, ahoyYml]) = pathClean (pathClean (slash :: r)) := by
  rw [filepathJoin_rooted]
  have hy : slash ∉ ahoyYml := by decide
  have hhead := pathClean_rooted_head r
  cases hX : pathClean (slash :: r) with
  | nil => rw [hX] at hhead; cases hhead
  | cons x0 x1 =>
    rw [hX] at hhead
    simp only [List.head?_cons, Option.some.injEq] at hhead
    subst hhead
    by_cases hlen : (slash :: x1).length ≠ 1
    · rw [if_pos hlen]
      simp only [filepathDir]
      rw [show (slash :: x1 ++ [slash]) ++ ahoyYml = (slash :: x1) ++ slash :: ahoyYml by simp,
        splitDir_append _ _ hy]
      exact pathClean_trailing_slash x1
    · rw [if_neg hlen]
      have hx1 : x1 = [] := by
        simp only [List.length_cons, ne_eq, Nat.add_left_eq_self, not_not] at hlen
        exact List.length_eq_zero.mp hlen
      subst hx1
      simp only [filepathDir]
      rw [show [slash] ++ ahoyYml = [] ++ slash :: ahoyYml by rfl, splitDir_append _ _ hy]
      rfl

theorem backtrackLoop_spec (buf : GoString) : ∀ w,
    (∀ i, backtrackLoop buf 1 w < i → i ≤ w → buf.getD i 0 ≠ slash) ∧
      (backtrackLoop buf 1 w ≤ 1 ∨ buf.getD (backtrackLoop buf 1 w) 0 = slash)
  | 0 => ⟨fun i hi hle => by simp only [backtrackLoop] at hi; omega,
      Or.inl (by simp [backtrackLoop])⟩
  | w + 1 => by
    unfold backtrackLoop
    by_cases hc : 1 < w + 1 ∧ buf.getD (w + 1) 0 ≠ slash
    · simp only [if_pos hc]
      have ih := backtrackLoop_spec buf w
      refine ⟨?_, ih.2⟩
      intro i hi hle
      rcases Nat.lt_or_ge w i with h | h
      · have : i = w + 1 := by omega
        rw [this]; exact hc.2
      · exact ih.1 i hi h
    · simp only [if_neg hc]
      refine ⟨fun i hi hle => by omega, ?_⟩
      by_cases h1 : 1 < w + 1
      · right
        by_contra h2
        exact hc ⟨h1, h2⟩
      · left; omega

/-- Reading a slash-free remainder either does not lengthen what is written, or appends
the remainder as one real element. -/
theorem cleanLoop_single (fuel : Nat) (y out : GoString) (hy : slash ∉ y)
    (hfuel : y.length ≤ fuel) :
    (cleanLoop true fuel y out 1).length ≤ out.length ∨
      cleanLoop true fuel y out 1 = (if out.length ≠ 1 then out ++ [slash] else out) ++ y := by
  cases y with
  | nil => left; rw [cleanLoop_nil]
  | cons c t =>
    simp only [List.mem_cons, not_or] at hy
    have hc1 : c ≠ slash := fun h => hy.1 h.symm
    have hhead : t.head? ≠ some slash := by
      intro h
      cases t with
      | nil => cases h
      | cons x xs =>
        simp only [List.head?_cons, Option.some.injEq] at h
        exact hy.2 (by simp [h])
    have htw : (c :: t).takeWhile (· ≠ slash) = c :: t := by
      rw [List.takeWhile_eq_self_iff]
      intro x hx
      rcases List.mem_cons.mp hx with h | h
      · simpa [h] using hc1
      · have : x ≠ slash := fun e => hy.2 (e ▸ h)
        simpa using this
    cases fuel with
    | zero => simp at hfuel
    | succ f =>
      by_cases h2 : c = dot ∧ (t = [] ∨ t.head? = some slash)
      · left
        have ht : t = [] := by
          rcases h2.2 with h | h
          · exact h
          · exact absurd h hhead
        rw [cleanLoop_cons]
        simp only [hc1, if_false, h2, and_self, if_true, ht, cleanLoop_nil]
        exact Nat.le_refl _
      · by_cases h3 : c = dot ∧ t.head? = some dot ∧ (t.tail = [] ∨ t.tail.head? = some slash)
        · left
          have ht : t.tail = [] := by
            rcases h3.2.2 with h | h
            · exact h
            · cases t with
              | nil => cases h
              | cons x xs =>
                cases xs with
                | nil => cases h
                | cons z zs =>
                  simp only [List.tail_cons, List.head?_cons, Option.some.injEq] at h
                  exact absurd (by simp [h]) hy.2
          rw [cleanLoop_cons, if_neg hc1, if_neg h2, if_pos h3, ht]
          split
          · rw [cleanLoop_nil]
            exact List.length_take_le' _ _
          · rw [cleanLoop_nil]
        · right
          have := cleanLoop_element (f + 1) c t out (by rw [htw]; exact hfuel) hc1 h2 h3
          rwa [htw] at this

/-- Backtracking over the last element of a clean rooted path leaves a clean path. -/
theorem backtrack_clean (o : GoString) (ho : o ≠ [])
    (hclean : pathClean (slash :: o) = slash :: o) :
    pathClean ((slash :: o).take (backtrackLoop (slash :: o) 1 ((slash :: o).length - 1))) =
      (slash :: o).take (backtrackLoop (slash :: o) 1 ((slash :: o).length - 1)) := by
  have hspec := backtrackLoop_spec (slash :: o) ((slash :: o).length - 1)
  have hle := backtrackLoop_le (slash :: o) 1 ((slash :: o).length - 1)
  generalize hw : backtrackLoop (slash :: o) 1 ((slash :: o).length - 1) = w at hspec hle
  simp only [List.length_cons, Nat.add_sub_cancel] at hspec hle
  rcases Nat.lt_or_ge 1 w with hw1 | hw1
  · -- the loop stopped at a slash
    have hsl : (slash :: o).getD w 0 = slash := by
      rcases hspec.2 with h | h
      · omega
      · exact h
    have hwlen : w < (slash :: o).length := by simp only [List.length_cons]; omega
    rw [List.getD_eq_getElem _ _ hwlen] at hsl
    have hdec : slash :: o = (slash :: o).take w ++ slash :: (slash :: o).drop (w + 1) := by
      conv_lhs => rw [← List.take_append_drop w (slash :: o), List.drop_eq_getElem_cons hwlen, hsl]
    have hy : slash ∉ (slash :: o).drop (w + 1) := by
      intro hmem
      obtain ⟨n, hn, hget⟩ := List.mem_iff_getElem.mp hmem
      rw [List.getElem_drop] at hget
      have hlt : w + 1 + n < (slash :: o).length := by
        rw [List.length_drop] at hn; omega
      have := hspec.1 (w + 1 + n) (by omega) (by simp only [List.length_cons] at hlt; omega)
      rw [List.getD_eq_getElem _ _ hlt] at this
      exact this hget
    obtain ⟨o1, ho1⟩ : ∃ o1, (slash :: o).take w = slash :: o1 := by
      cases w with
      | zero => omega
      | succ w => exact ⟨o.take w, by simp⟩
    generalize hyd : (slash :: o).drop (w + 1) = y at hdec hy
    rw [ho1] at hdec ⊢
    have hlenP : (pathClean (slash :: o1)).length ≤ (slash :: o1).length :=
      pathClean_rooted_length o1
    have hposP : 1 ≤ (pathClean (slash :: o1)).length := by
      have := pathClean_rooted_head o1
      cases hP : pathClean (slash :: o1) with
      | nil => rw [hP] at this; cases this
      | cons _ _ => simp
    have hrun : pathClean (slash :: o) =
        cleanLoop true y.length y (pathClean (slash :: o1)) 1 := by
      have ho : o = o1 ++ slash :: y := by
        have := hdec
        simp only [List.cons_append, List.cons.injEq, true_and] at this
        exact this
      rw [pathClean_rooted, pathClean_rooted, ho,
        cleanLoop_fuel _ (o1.length + 1 + y.length) _ _ (Nat.le_refl _) (by simp; omega),
        cleanLoop_append _ o1 y _ (Nat.le_refl _)]
    rw [hclean] at hrun
    rcases cleanLoop_single y.length y (pathClean (slash :: o1)) hy (Nat.le_refl _) with h | h
    · exfalso
      rw [← hrun, hdec] at h
      simp only [List.length_append, List.length_cons] at h hlenP
      omega
    · rw [h, hdec] at hrun
      rw [show slash :: o1 ++ slash :: y = (slash :: o1 ++ [slash]) ++ y by simp] at hrun
      have hcancel := List.append_cancel_right hrun
      by_cases hl : (pathClean (slash :: o1)).length ≠ 1
      · rw [if_pos hl] at hcancel
        exact (List.append_cancel_right hcancel).symm
      · rw [if_neg hl] at hcancel
        exfalso
        have := congrArg List.length hcancel
        simp only [List.length_append, List.length_cons, List.length_nil] at this
        simp only [ne_eq, not_not] at hl
        omega
  · -- the loop stopped at the root
    have hge := backtrackLoop_ge (slash :: o) 1 ((slash :: o).length - 1)
    have : 1 ≤ w := by
      rw [hw] at hge
      apply hge
      have := List.length_pos.mpr ho
      simp only [List.length_cons]; omega
    have hw' : w = 1 := by omega
    subst hw'
    simp only [List.take_succ_cons, List.take_zero]
    decide

/-- The loop of `path.Clean` keeps what is written clean: if the written part is a
rooted path that `path.Clean` leaves alone, so is the result. -/
theorem cleanLoop_clean : ∀ (fuel : Nat) (rest out : GoString), rest.length ≤ fuel →
    out.head? = some slash → pathClean out = out →
      pathClean (cleanLoop true fuel rest out 1) = cleanLoop true fuel rest out 1 := by
  intro fuel
  induction fuel with
  | zero => intro rest out _ _ hc; simpa [cleanLoop] using hc
  | succ f ih =>
    intro rest out hfuel hroot hclean
    cases rest with
    | nil => simpa [cleanLoop_nil] using hclean
    | cons c t =>
      simp only [List.length_cons, Nat.add_le_add_iff_right] at hfuel
      have htl : t.tail.length ≤ t.length := by simp
      obtain ⟨o, ho⟩ : ∃ o, out = slash :: o := by
        cases out with
        | nil => cases hroot
        | cons b o =>
          simp only [List.head?_cons, Option.some.injEq] at hroot
          exact ⟨o, by rw [hroot]⟩
      rw [cleanLoop_cons]
      by_cases h1 : c = slash
      · rw [if_pos h1]; exact ih t out hfuel hroot hclean
      · rw [if_neg h1]
        by_cases h2 : c = dot ∧ (t = [] ∨ t.head? = some slash)
        · rw [if_pos h2]; exact ih t out hfuel hroot hclean
        · rw [if_neg h2]
          by_cases h3 : c = dot ∧ t.head? = some dot ∧ (t.tail = [] ∨ t.tail.head? = some slash)
          · rw [if_pos h3]
            split
            · rename_i hlen
              have hone : o ≠ [] := by
                intro h; rw [ho, h] at hlen; simp at hlen
              apply ih _ _ (le_trans htl hfuel)
              · rw [List.head?_take]
                have := backtrackLoop_ge out 1 (out.length - 1) (by omega)
                rw [if_neg (by omega)]
                exact hroot
              · rw [ho]
                exact backtrack_clean o hone (by rw [← ho]; exact hclean)
            · exact ih _ _ (le_trans htl hfuel) hroot hclean
          · rw [if_neg h3]
            have hdl : ((c :: t).dropWhile (· ≠ slash)).length ≤ t.length := by
              rw [List.dropWhile_cons]
              simp only [ne_eq, h1, not_false_eq_true, decide_True, if_true]
              exact dropWhile_length_le _ _
            apply ih _ _ (le_trans hdl hfuel)
            · rw [ho]; split <;> simp
            · generalize he : (c :: t).takeWhile (· ≠ slash) = e
              have hel := cleanLoop_element e.length c t out (by rw [he]) h1 h2 h3
              rw [he] at hel
              subst ho
              by_cases hl : (slash :: o).length ≠ 1
              · rw [if_pos hl] at hel ⊢
                have hrun : pathClean (slash :: o ++ [slash] ++ e) =
                    cleanLoop true e.length e (slash :: o) 1 := by
                  rw [show slash :: o ++ [slash] ++ e = slash :: (o ++ slash :: e) by simp,
                    pathClean_rooted,
                    cleanLoop_fuel _ (o.length + 1 + e.length) _ _ (Nat.le_refl _)
                      (by simp; omega),
                    cleanLoop_append _ o e _ (Nat.le_refl _), ← pathClean_rooted, hclean]
                rw [hrun, hel]
              · rw [if_neg hl] at hel ⊢
                have ho' : o = [] := by
                  simp only [ne_eq, not_not, List.length_cons, Nat.add_left_eq_self] at hl
                  exact List.length_eq_zero.mp hl
                subst ho'
                rw [show [slash] ++ e = slash :: e by rfl, pathClean_rooted]
                exact hel

/-- On rooted paths `path.Clean` is idempotent. -/
theorem pathClean_idem (r : GoString) :
    pathClean (pathClean (slash :: r)) = pathClean (slash :: r) := by
  rw [pathClean_rooted]
  exact cleanLoop_clean _ _ _ (Nat.le_refl _) rfl (by decide)

/-- The parent that `path.Dir` computes for a rooted path is clean. -/
theorem pathDir_clean (d : GoString) (h : d.head? = some slash) :
    pathClean (pathDir d) = pathDir d := by
  cases d with
  | nil => cases h
  | cons b r =>
    simp only [List.head?_cons, Option.some.injEq] at h
    subst h
    obtain ⟨x, y, hxy, hy⟩ := last_slash_decomp (slash :: r) (by simp)
    have hsplit : splitDir (slash :: r) = x ++ [slash] := by
      rw [hxy]; exact splitDir_append x y hy
    cases x with
    | nil =>
      simp only [pathDir, hsplit, List.nil_append]
      decide
    | cons x0 x1 =>
      have hx0 : x0 = slash := by
        simp only [List.cons_append, List.cons.injEq] at hxy
        exact hxy.1.symm
      subst hx0
      simp only [pathDir, hsplit, List.cons_append]
      exact pathClean_idem _

/-- For a clean rooted directory other than the root, `filepath.Join(d, ".ahoy.yml")`
is `d`, a slash and the file name. -/
theorem filepathJoin_clean (d : GoString) (h : d.head? = some slash)
    (hclean : pathClean d = d) (hne : d ≠ [slash]) :
    filepathJoin [d, ahoyYml] = d ++ slash :: ahoyYml := by
  cases d with
  | nil => cases h
  | cons b r =>
    simp only [List.head?_cons, Option.some.injEq] at h
    subst h
    rw [filepathJoin_rooted, hclean]
    have hl : (slash :: r).length ≠ 1 := by
      intro hl
      apply hne
      simp only [List.length_cons, Nat.add_left_eq_self] at hl
      rw [List.length_eq_zero.mp hl]
    rw [if_pos hl]
    simp

/-! ## Configuration discovery -/

theorem pathDir_iterate_rooted (d : GoString) (h : d.head? = some slash) :
    ∀ j, (pathDir^[j] d).head? = some slash
  | 0 => h
  | j + 1 => by
    rw [Function.iterate_succ_apply']
    by_cases hr : pathDir^[j] d = [slash]
    · rw [hr]; decide
    · exact (pathDir_rooted _ (pathDir_iterate_rooted d h j) hr).1

theorem pathDir_iterate_clean (d : GoString) (h : d.head? = some slash) (k : Nat)
    (hk : 0 < k ∨ pathClean d = d) : pathClean (pathDir^[k] d) = pathDir^[k] d := by
  cases k with
  | zero =>
    rcases hk with hk | hk
    · omega
    · exact hk
  | succ k =>
    rw [Function.iterate_succ_apply']
    exact pathDir_clean _ (pathDir_iterate_rooted d h k)

theorem runCommand_spawned (env : Env) (g : Globals) (name c : GoString) :
    spawned (runCommand env g name c).trace =
      [(g.sourcedir, [ascii "bash", ascii "-c",
        stringsReplace c argsToken (stringsJoin g.args (ascii " ")) 1])] := by
  unfold runCommand
  by_cases hv : g.verbose = true <;>
    by_cases he : (env.cmdRun g.sourcedir [ascii "bash", ascii "-c",
      stringsReplace c argsToken (stringsJoin g.args (ascii " ")) 1]).isErr = true <;>
    simp [hv, he, spawned]

theorem walkUp_no_spawn (env : Env) : ∀ (fuel : Nat) (d : GoString) (r : Run (GoString × Option GoError)),
    walkUp env fuel d = some r → spawned r.trace = [] := by
  intro fuel
  induction fuel with
  | zero => intro d r h; simp [walkUp] at h
  | succ f ih =>
    intro d r h
    unfold walkUp at h
    by_cases hd : d = [slash]
    · simp only [hd, ne_eq, not_true_eq_false, if_false, Option.some.injEq] at h
      rw [← h]; rfl
    · simp only [ne_eq, hd, not_false_eq_true, if_true] at h
      by_cases hs : env.stat (filepathJoin [d, ahoyYml]) = true
      · simp only [hs, if_true, Option.some.injEq] at h
        rw [← h]; rfl
      · simp only [hs, Bool.false_eq_true, if_false, Option.map_eq_some'] at h
        obtain ⟨r1, hr1, hr⟩ := h
        rw [← hr]
        simpa [spawned] using ih _ _ hr1

/-- Locating the configuration starts no process. -/
theorem getConfigPath_no_spawn (env : Env) (fuel : Nat) (s : GoString)
    (r : Run (GoString × Option GoError)) (h : getConfigPath env fuel s = some r) :
    spawned r.trace = [] := by
  unfold getConfigPath at h
  by_cases hs : s = []
  · simp only [hs, ne_eq, not_true_eq_false, if_false] at h
    cases hwd : env.getwd with
    | error e =>
      simp only [hwd, Option.some.injEq] at h
      rw [← h]; rfl
    | ok dir =>
      simp only [hwd, Option.map_eq_some'] at h
      obtain ⟨r1, hr1, hr⟩ := h
      rw [← hr]
      simpa [spawned] using walkUp_no_spawn env _ _ _ hr1
  · simp only [ne_eq, hs, not_false_eq_true, if_true] at h
    by_cases hst : env.stat s = true
    · simp only [hst, if_true, Option.some.injEq] at h
      rw [← h]; rfl
    · simp only [hst, Bool.false_eq_true, if_false, Option.some.injEq] at h
      rw [← h]; rfl

theorem getConfig_ok (env : Env) (p : GoString) (config : Config)
    (h : env.yamlUnmarshal (env.readFile p).1 = .ok config) :
    getConfig env p =
      ⟨.readFile p :: (if (env.readFile p).2.isSome then
          [.println [ascii "\n ==> Error: An ahoy config file couldn\x27t be found in your path. You can create an example one by using \x27ahoy init\x27\n"]]
        else []), .ret (config, none)⟩ := by
  simp only [getConfig, h]

theorem getConfig_error (env : Env) (p : GoString) (e : GoError)
    (h : env.yamlUnmarshal (env.readFile p).1 = .error e) :
    getConfig env p =
      ⟨.readFile p :: (if (env.readFile p).2.isSome then
          [.println [ascii "\n ==> Error: An ahoy config file couldn\x27t be found in your path. You can create an example one by using \x27ahoy init\x27\n"]]
        else []), .panicked⟩ := by
  simp only [getConfig, h]

/-- Reading and parsing the configuration starts no process. -/
theorem getConfig_no_spawn (env : Env) (p : GoString) : spawned (getConfig env p).trace = [] := by
  cases h : env.yamlUnmarshal (env.readFile p).1 with
  | error e =>
    rw [getConfig_error env p e h]
    cases (env.readFile p).2 <;> rfl
  | ok config =>
    rw [getConfig_ok env p config h]
    cases (env.readFile p).2 <;> rfl

/-- The set-up of `main` when the configuration was located and parses. -/
theorem mainSetup_ok (env : Env) (fuel : Nat) (g : Globals) (tr : List Event) (p : GoString)
    (config : Config)
    (hloc : getConfigPath env fuel g.sourcefile = some ⟨tr, .ret (p, none)⟩)
    (h : env.yamlUnmarshal (env.readFile p).1 = .ok config) :
    mainSetup env fuel g =
      some ⟨tr ++ ((getConfig env p).trace ++ []),
        .ret ⟨{ g with sourcedir := filepathDir p }, addDefaultCommands (getCommands config)⟩⟩ := by
  simp only [mainSetup, hloc, Option.map_some', Run.bind, if_true, getConfig_ok env p config h,
    Run.pure]

/-- The set-up of `main` when the configuration was located and does not parse. -/
theorem mainSetup_error (env : Env) (fuel : Nat) (g : Globals) (tr : List Event) (p : GoString)
    (e : GoError)
    (hloc : getConfigPath env fuel g.sourcefile = some ⟨tr, .ret (p, none)⟩)
    (h : env.yamlUnmarshal (env.readFile p).1 = .error e) :
    mainSetup env fuel g = some ⟨tr ++ (getConfig env p).trace, .panicked⟩ := by
  simp only [mainSetup, hloc, Option.map_some', Run.bind, if_true, getConfig_error env p e h]

/-! ## The set-up in `main` -/

/-- C6. With no explicit path and no `.ahoy.yml` in any directory of the chain from the
working directory upward, nothing is fatal: `getConfigPath` returns the empty path with
a nil error; `getConfig` on that path, which cannot be read (and whose empty content
`yaml.Unmarshal` accepts, leaving the zero `Config`), prints its warning and returns a
configuration with no commands; and `main` reaches `app.Run` with exactly one registered
command, the built-in `init`, without having started a process. -/
theorem no_config_registers_only_builtin (env : Env) (g : Globals) (d : GoString) (e : GoError)
    (hsrc : g.sourcefile = []) (hwd : env.getwd = .ok d) (habs : d.head? = some slash)
    (hmiss : ∀ j, j < d.length → pathDir^[j] d ≠ [slash] →
      env.stat (filepathJoin [pathDir^[j] d, ahoyYml]) = false)
    (hread : env.readFile [] = ([], some e))
    (hyaml : env.yamlUnmarshal [] = .ok Config.zero) :
    ∀ fuel, d.length ≤ fuel →
      (getConfigPath env fuel []).map (·.outcome) = some (.ret ([], none)) ∧
      getConfig env [] =
        ⟨[.readFile [], .println [ascii "\n ==> Error: An ahoy config file couldn\x27t be found in your path. You can create an example one by using \x27ahoy init\x27\n"]],
          .ret (Config.zero, none)⟩ ∧
      (getConfig env []).outcome = .ret (Config.zero, none) ∧
      Config.zero.Commands.entries = [] ∧
      ∃ tr, mainSetup env fuel g =
          some ⟨tr, .ret ⟨{ g with sourcedir := [dot] }, [initCommand]⟩⟩ ∧
        spawned tr = [] ∧
        ([initCommand].map (·.Name)) = [ascii "init"] := by
  intro fuel hfuel
  obtain ⟨n, _, _, _, hw⟩ := walkUp_not_found env fuel d habs hfuel hmiss
  have hloc : getConfigPath env fuel g.sourcefile =
      some ⟨.getwd :: (List.range n).map
        (fun j => Event.stat (filepathJoin [pathDir^[j] d, ahoyYml])), .ret ([], none)⟩ := by
    simp [getConfigPath, hsrc, hwd, hw]
  have hy : env.yamlUnmarshal (env.readFile []).1 = .ok Config.zero := by rw [hread]; exact hyaml
  have hcfg := getConfig_ok env [] Config.zero hy
  simp only [hread, Option.isSome_some, if_true] at hcfg
  refine ⟨?_, hcfg, by rw [hcfg], rfl, ?_⟩
  · rw [hsrc] at hloc
    rw [hloc]; rfl
  · refine ⟨_, mainSetup_ok env fuel g _ [] Config.zero hloc hy, ?_, rfl⟩
    have h1 := getConfigPath_no_spawn env fuel _ _ hloc
    have h2 := getConfig_no_spawn env []
    rw [run_spawned_append, run_spawned_append, h1, h2]
    rfl

/-- C6 on a concrete run: from `/a/b` in an empty file system the set-up ends normally
with the single command `init`. -/
theorem no_config_registers_only_builtin_witness :
    (mainSetup ⟨fun _ => false, .ok (ascii "/a/b"), fun _ => ([], some ⟨[]⟩),
        fun b => if b = [] then .ok Config.zero else .error ⟨[]⟩, fun _ _ => .exited 0⟩ 4
        ⟨[], [], [], false⟩).map (fun r => r.outcome) =
      some (.ret ⟨⟨[dot], [], [], false⟩, [initCommand]⟩) := by
  obtain ⟨tr, h, _⟩ := (no_config_registers_only_builtin
    ⟨fun _ => false, .ok (ascii "/a/b"), fun _ => ([], some ⟨[]⟩),
      fun b => if b = [] then .ok Config.zero else .error ⟨[]⟩, fun _ _ => .exited 0⟩
    ⟨[], [], [], false⟩ (ascii "/a/b") ⟨[]⟩ rfl rfl (by decide) (fun _ _ _ => rfl) rfl rfl
    4 (by decide)).2.2.2.2
  rw [h]
  rfl

/-- C9. When the located configuration file does not parse, `getConfig` panics instead
of returning a configuration; in `main` this happens before any command is registered
and before `app.Run`, so whatever the command-line library would do, the process ends
by that panic, with a non-zero status, and no process was started. -/
theorem malformed_config_panics (env : Env) (fuel : Nat) (g : Globals) (appRun : App → Run Unit)
    (tr : List Event) (p : GoString) (e : GoError)
    (hloc : getConfigPath env fuel g.sourcefile = some ⟨tr, .ret (p, none)⟩)
    (hbad : env.yamlUnmarshal (env.readFile p).1 = .error e) :
    (getConfig env p).outcome = .panicked ∧
      ∃ r, main env fuel g appRun = some r ∧ r.outcome = .panicked ∧ r.exitStatus ≠ 0 ∧
        spawned r.trace = [] ∧
        (mainSetup env fuel g).map (·.outcome) = some .panicked := by
  have hsetup := mainSetup_error env fuel g tr p e hloc hbad
  refine ⟨by rw [getConfig_error env p e hbad], ⟨tr ++ (getConfig env p).trace, .panicked⟩,
    ?_, rfl, by simp [Run.exitStatus], ?_, by rw [hsetup]; rfl⟩
  · simp only [main, hsetup, Option.map_some', Run.bind]
  · simp only [run_spawned_append, getConfigPath_no_spawn env fuel _ _ hloc,
      getConfig_no_spawn, List.append_nil]

/-- C9 on a concrete run: an explicit file whose content the parser rejects; even a
command-line layer that would start a process never gets to. -/
theorem malformed_config_panics_witness :
    (main ⟨fun _ => true, .ok (ascii "/a"), fun _ => (ascii ": :", none),
        fun _ => .error ⟨ascii "yaml: did not find expected key"⟩, fun _ _ => .exited 0⟩ 0
        ⟨[], ascii "bad.yml", [], false⟩
        (fun app => ⟨[.spawn app.globals.sourcedir [ascii "bash"]], .ret ()⟩)).map
      (fun r => (r.outcome, spawned r.trace)) = some (.panicked, []) := by
  obtain ⟨r, h, ho, _, hs, _⟩ := (malformed_config_panics
    ⟨fun _ => true, .ok (ascii "/a"), fun _ => (ascii ": :", none),
      fun _ => .error ⟨ascii "yaml: did not find expected key"⟩, fun _ _ => .exited 0⟩ 0
    ⟨[], ascii "bad.yml", [], false⟩
    (fun app => ⟨[.spawn app.globals.sourcedir [ascii "bash"]], .ret ()⟩)
    [.stat (ascii "bad.yml")] (ascii "bad.yml") ⟨ascii "yaml: did not find expected key"⟩
    (by decide) rfl).2
  rw [h]
  simp [ho, hs]

/-! ## The root directory -/

/-- The candidate of a rooted directory whose cleaned form is not the root is the
cleaned directory, a slash and the file name. -/
theorem filepathJoin_below_root (dir : GoString) (h : dir.head? = some slash)
    (hne : pathClean dir ≠ [slash]) :
    filepathJoin [dir, ahoyYml] = pathClean dir ++ slash :: ahoyYml := by
  cases dir with
  | nil => cases h
  | cons b r =>
    simp only [List.head?_cons, Option.some.injEq] at h
    subst h
    rw [filepathJoin_rooted]
    have hhead := pathClean_rooted_head r
    have hl : (pathClean (slash :: r)).length ≠ 1 := by
      intro hl
      apply hne
      cases hX : pathClean (slash :: r) with
      | nil => rw [hX] at hl; cases hl
      | cons x0 x1 =>
        rw [hX] at hl hhead
        simp only [List.head?_cons, Option.some.injEq] at hhead
        simp only [List.length_cons, Nat.add_left_eq_self] at hl
        rw [hhead, List.length_eq_zero.mp hl]
    rw [if_pos hl]
    simp

theorem pathClean_head (p : GoString) (h : p.head? = some slash) :
    (pathClean p).head? = some slash := by
  cases p with
  | nil => cases h
  | cons b r =>
    simp only [List.head?_cons, Option.some.injEq] at h
    subst h
    exact pathClean_rooted_head r

/-- C10, as amended. For an absolute working directory `d` that is `/` itself or whose
cleaned form is not `/` (so for every clean absolute path): when no directory of the
chain below the root contains `.ahoy.yml`, `getConfigPath` returns the empty path with
a nil error whether or not `/.ahoy.yml` exists, and it never stats `/.ahoy.yml`: the
walk stops at `/` without looking into it. (A directory of the chain is named by its
cleaned form, which for a parent, and for a clean `d`, is the directory itself.) -/
theorem getConfigPath_skips_root (env : Env) (d : GoString) (hwd : env.getwd = .ok d)
    (habs : d.head? = some slash) (hd : d = [slash] ∨ pathClean d ≠ [slash])
    (hmiss : ∀ j, j < d.length → pathDir^[j] d ≠ [slash] →
      env.stat (pathClean (pathDir^[j] d) ++ slash :: ahoyYml) = false) :
    ∀ fuel, d.length ≤ fuel →
      ∃ tr, getConfigPath env fuel [] = some ⟨tr, .ret ([], none)⟩ ∧
        Event.stat (ascii "/.ahoy.yml") ∉ tr := by
  intro fuel hfuel
  have hbelow : ∀ j, pathDir^[j] d ≠ [slash] → pathClean (pathDir^[j] d) ≠ [slash] := by
    intro j hj
    cases j with
    | zero =>
      rcases hd with hd | hd
      · exact absurd hd hj
      · exact hd
    | succ j =>
      rw [pathDir_iterate_clean d habs (j + 1) (Or.inl (Nat.succ_pos j))]
      exact hj
  have hcand : ∀ j, pathDir^[j] d ≠ [slash] →
      filepathJoin [pathDir^[j] d, ahoyYml] = pathClean (pathDir^[j] d) ++ slash :: ahoyYml :=
    fun j hj => filepathJoin_below_root _ (pathDir_iterate_rooted d habs j) (hbelow j hj)
  have hmiss1 : ∀ j, j < d.length → pathDir^[j] d ≠ [slash] →
      env.stat (filepathJoin [pathDir^[j] d, ahoyYml]) = false := by
    intro j hjl hj
    rw [hcand j hj]
    exact hmiss j hjl hj
  obtain ⟨n, _, _, hchain, hw⟩ := walkUp_not_found env fuel d habs hfuel hmiss1
  have hloc : getConfigPath env fuel [] =
      some ⟨.getwd :: (List.range n).map
        (fun j => Event.stat (filepathJoin [pathDir^[j] d, ahoyYml])), .ret ([], none)⟩ := by
    simp only [getConfigPath, ne_eq, not_true_eq_false, if_false, hwd, hw, Option.map_some']
  refine ⟨_, hloc, ?_⟩
  intro hmem
  simp only [List.mem_cons, reduceCtorEq, List.mem_map, List.mem_range, Event.stat.injEq,
    false_or] at hmem
  obtain ⟨j, hj, hjoin⟩ := hmem
  rw [hcand j (hchain j hj)] at hjoin
  have hlen := congrArg List.length hjoin
  have h10 : (ascii "/.ahoy.yml").length = 10 := by decide
  have h9 : ahoyYml.length = 9 := by decide
  have hne := hbelow j (hchain j hj)
  have hhead := pathClean_head _ (pathDir_iterate_rooted d habs j)
  cases hX : pathClean (pathDir^[j] d) with
  | nil => rw [hX] at hhead; cases hhead
  | cons x0 x1 =>
    rw [hX] at hlen
    simp only [List.length_append, List.length_cons, h10, h9] at hlen
    have hx1 : x1 = [] := List.length_eq_zero.mp (by omega)
    rw [hX, hx1] at hjoin
    have hx0 : x0 = slash := by
      rw [hX] at hhead
      simpa using hhead
    exact hne (by rw [hX, hx1, hx0])

/-- C10 on concrete inputs: from `/a/b`, and from `/` itself, in a file system whose only
file is `/.ahoy.yml`, nothing is found and `/.ahoy.yml` is never looked at. -/
theorem getConfigPath_skips_root_witness :
    (∃ tr, getConfigPath ⟨fun p => pathClean p == ascii "/.ahoy.yml", .ok (ascii "/a/b"),
          fun _ => ([], none), fun _ => .ok Config.zero, fun _ _ => .exited 0⟩ 4 [] =
        some ⟨tr, .ret ([], none)⟩ ∧ Event.stat (ascii "/.ahoy.yml") ∉ tr) ∧
      (∃ tr, getConfigPath ⟨fun p => pathClean p == ascii "/.ahoy.yml", .ok (ascii "/"),
          fun _ => ([], none), fun _ => .ok Config.zero, fun _ _ => .exited 0⟩ 1 [] =
        some ⟨tr, .ret ([], none)⟩ ∧ Event.stat (ascii "/.ahoy.yml") ∉ tr) :=
  ⟨getConfigPath_skips_root ⟨fun p => pathClean p == ascii "/.ahoy.yml", .ok (ascii "/a/b"),
      fun _ => ([], none), fun _ => .ok Config.zero, fun _ _ => .exited 0⟩ (ascii "/a/b") rfl
      (by decide) (Or.inr (by decide)) (by decide) 4 (by decide),
   getConfigPath_skips_root ⟨fun p => pathClean p == ascii "/.ahoy.yml", .ok (ascii "/"),
      fun _ => ([], none), fun _ => .ok Config.zero, fun _ _ => .exited 0⟩ (ascii "/") rfl
      (by decide) (Or.inl (by decide)) (by decide) 1 (by decide)⟩

/-- C10 as stated fails. Take the file system whose only file is `/.ahoy.yml` (every
path that cleans to `/.ahoy.yml` exists, no other). The working directory `//` is
absolute and is not the string `/`, so the loop body runs; `Join("//", ".ahoy.yml")`
is `/.ahoy.yml`, and `getConfigPath` returns it, not the empty path. The same happens
from `/a/..`. So the statement for every absolute working directory is false. -/
theorem getConfigPath_double_slash_finds_root :
    getConfigPath ⟨fun p => pathClean p == ascii "/.ahoy.yml", .ok (ascii "//"),
        fun _ => ([], none), fun _ => .ok Config.zero, fun _ _ => .exited 0⟩ 2 [] =
      some ⟨[.getwd, .stat (ascii "/.ahoy.yml")], .ret (ascii "/.ahoy.yml", none)⟩ ∧
    getConfigPath ⟨fun p => pathClean p == ascii "/.ahoy.yml", .ok (ascii "/a/.."),
        fun _ => ([], none), fun _ => .ok Config.zero, fun _ _ => .exited 0⟩ 5 [] =
      some ⟨[.getwd, .stat (ascii "/.ahoy.yml")], .ret (ascii "/.ahoy.yml", none)⟩ ∧
    ¬ (∀ (env : Env) (d : GoString), env.getwd = .ok d → d.head? = some slash →
        (∀ p, env.stat p = true → pathClean p = ascii "/.ahoy.yml") →
        ∀ fuel, d.length ≤ fuel →
          (getConfigPath env fuel []).map (·.outcome) = some (.ret ([], none))) := by
  refine ⟨by decide, by decide, ?_⟩
  intro h
  have := h ⟨fun p => pathClean p == ascii "/.ahoy.yml", .ok (ascii "//"),
        fun _ => ([], none), fun _ => .ok Config.zero, fun _ _ => .exited 0⟩ (ascii "//") rfl
        (by decide) (fun p hp => by simpa using hp) 2 (by decide)
  revert this
  decide

/-! ## The walk and the parent chain -/

theorem dropWhile_no_slash : ∀ y : GoString, slash ∉ y → y.dropWhile (· ≠ slash) = []
  | [], _ => rfl
  | b :: t, h => by
    simp only [List.mem_cons, not_or] at h
    have hb : b ≠ slash := fun e => h.1 e.symm
    rw [List.dropWhile_cons]
    simp only [ne_eq, hb, not_false_eq_true, decide_True, if_true]
    exact dropWhile_no_slash t h.2

/-- The specification's parent of `x/y`, where `y` is the last element, is `x`, and `/`
when `x` is empty. -/
theorem specParent_append (x y : GoString) (hy : slash ∉ y) :
    specParent (x ++ slash :: y) = if x = [] then [slash] else x := by
  have hr : slash ∉ y.reverse := by simpa using hy
  have h1 : ((x ++ slash :: y).reverse.dropWhile (· ≠ slash)).tail.reverse = x := by
    rw [List.reverse_append, List.reverse_cons, List.append_assoc]
    rw [show [slash] ++ x.reverse = slash :: x.reverse by rfl, dropWhile_append_slash,
      dropWhile_no_slash _ hr]
    simp
  simp only [specParent, h1]

/-- What `path.Dir` is on `x/y` with last element `y`: the cleaned `x`, and `/` when `x`
is empty. -/
theorem pathDir_append (x1 y : GoString) (hy : slash ∉ y) :
    pathDir (slash :: y) = [slash] ∧
      pathDir ((slash :: x1) ++ slash :: y) = pathClean (slash :: x1) := by
  constructor
  · have := splitDir_append [] y hy
    simp only [List.nil_append] at this
    simp only [pathDir, this]
    decide
  · have := splitDir_append (slash :: x1) y hy
    simp only [List.cons_append] at this
    simp only [pathDir, List.cons_append, this]
    exact pathClean_trailing_slash x1

/-- What `path.Clean` is on `x/y` with last element `y`: the loop run on `y` after the
cleaned `x`. -/
theorem pathClean_append (x1 y : GoString) :
    pathClean ((slash :: x1) ++ slash :: y) =
      cleanLoop true y.length y (pathClean (slash :: x1)) 1 := by
  rw [show (slash :: x1) ++ slash :: y = slash :: (x1 ++ slash :: y) by rfl,
    pathClean_rooted, pathClean_rooted,
    cleanLoop_fuel _ (x1.length + 1 + y.length) _ _ (Nat.le_refl _) (by simp; omega),
    cleanLoop_append _ x1 y _ (Nat.le_refl _)]

/-- Reading a last element other than `..` either changes nothing (the element is empty
or `.`) or appends it. -/
theorem cleanLoop_last_element (fuel : Nat) (y out : GoString) (hy : slash ∉ y)
    (hdd : y ≠ [dot, dot]) (hfuel : y.length ≤ fuel) :
    cleanLoop true fuel y out 1 = out ∨
      cleanLoop true fuel y out 1 = (if out.length ≠ 1 then out ++ [slash] else out) ++ y := by
  cases y with
  | nil => left; rw [cleanLoop_nil]
  | cons c t =>
    simp only [List.mem_cons, not_or] at hy
    have hc1 : c ≠ slash := fun h => hy.1 h.symm
    have hhead : t.head? ≠ some slash := by
      intro h
      cases t with
      | nil => cases h
      | cons x xs =>
        simp only [List.head?_cons, Option.some.injEq] at h
        exact hy.2 (by simp [h])
    have htw : (c :: t).takeWhile (· ≠ slash) = c :: t := by
      rw [List.takeWhile_eq_self_iff]
      intro x hx
      rcases List.mem_cons.mp hx with h | h
      · simpa [h] using hc1
      · have : x ≠ slash := fun e => hy.2 (e ▸ h)
        simpa using this
    cases fuel with
    | zero => simp at hfuel
    | succ f =>
      by_cases h2 : c = dot ∧ (t = [] ∨ t.head? = some slash)
      · left
        have ht : t = [] := by
          rcases h2.2 with h | h
          · exact h
          · exact absurd h hhead
        rw [cleanLoop_cons, if_neg hc1, if_pos h2, ht, cleanLoop_nil]
      · by_cases h3 : c = dot ∧ t.head? = some dot ∧ (t.tail = [] ∨ t.tail.head? = some slash)
        · exfalso
          apply hdd
          obtain ⟨hc, hd, htl⟩ := h3
          cases t with
          | nil => cases hd
          | cons x xs =>
            simp only [List.head?_cons, Option.some.injEq] at hd
            cases xs with
            | nil => rw [hc, hd]
            | cons z zs =>
              simp only [List.tail_cons, List.head?_cons, Option.some.injEq, reduceCtorEq,
                false_or] at htl
              exact absurd (by simp [htl]) hy.2
        · right
          have := cleanLoop_element (f + 1) c t out (by rw [htw]; exact hfuel) hc1 h2 h3
          rwa [htw] at this

/-- The directory that `path.Dir` gives for an absolute path whose last element is not
`..` is the directory the path names (its cleaned form) or the parent of that
directory. -/
theorem pathDir_is_self_or_parent (d : GoString) (h : d.head? = some slash)
    (hlast : ¬ [slash, dot, dot] <:+ d) :
    pathDir d = pathClean d ∨ pathDir d = specParent (pathClean d) := by
  cases d with
  | nil => cases h
  | cons b r =>
    simp only [List.head?_cons, Option.some.injEq] at h
    subst h
    obtain ⟨x, y, hxy, hy⟩ := last_slash_decomp (slash :: r) (by simp)
    have hdd : y ≠ [dot, dot] := by
      intro hyd
      apply hlast
      rw [hxy, hyd]
      exact ⟨x, rfl⟩
    rw [hxy]
    cases x with
    | nil =>
      simp only [List.nil_append]
      rw [(pathDir_append [] y hy).1, pathClean_rooted]
      rcases cleanLoop_last_element y.length y [slash] hy hdd (Nat.le_refl _) with hc | hc
      · left; rw [hc]
      · right
        rw [hc]
        simp only [List.length_singleton, ne_eq, not_true_eq_false, if_false]
        have := specParent_append [] y hy
        simp only [List.nil_append, if_true] at this
        exact this.symm
    | cons x0 x1 =>
      have hx0 : x0 = slash := by
        simp only [List.cons_append, List.cons.injEq] at hxy
        exact hxy.1.symm
      subst hx0
      rw [(pathDir_append x1 y hy).2, pathClean_append]
      rcases cleanLoop_last_element y.length y (pathClean (slash :: x1)) hy hdd (Nat.le_refl _)
        with hc | hc
      · left; rw [hc]
      · right
        rw [hc]
        have hhead := pathClean_rooted_head x1
        by_cases hl : (pathClean (slash :: x1)).length ≠ 1
        · rw [if_pos hl, List.append_assoc, show [slash] ++ y = slash :: y by rfl,
            specParent_append _ y hy]
          have hne : pathClean (slash :: x1) ≠ [] := by
            intro he; rw [he] at hhead; cases hhead
          rw [if_neg hne]
        · rw [if_neg hl]
          simp only [ne_eq, not_not] at hl
          have hX : pathClean (slash :: x1) = [slash] := by
            cases hP : pathClean (slash :: x1) with
            | nil => rw [hP] at hl; cases hl
            | cons p0 p1 =>
              rw [hP] at hl hhead
              simp only [List.head?_cons, Option.some.injEq] at hhead
              simp only [List.length_cons, Nat.add_left_eq_self] at hl
              rw [hhead, List.length_eq_zero.mp hl]
          rw [hX]
          have := specParent_append [] y hy
          simp only [List.nil_append, if_true] at this
          exact this.symm

theorem clean_no_dotdot_suffix (d : GoString) (h : d.head? = some slash)
    (hclean : pathClean d = d) : ¬ [slash, dot, dot] <:+ d := by
  rintro ⟨x, hx⟩
  cases x with
  | nil =>
    rw [← hx] at hclean
    revert hclean
    decide
  | cons x0 x1 =>
    have hx0 : x0 = slash := by
      rw [← hx] at h
      simpa using h
    subst hx0
    have hlen := pathClean_rooted_length x1
    have hrun := pathClean_append x1 [dot, dot]
    rw [show (slash :: x1) ++ slash :: [dot, dot] = slash :: x1 ++ [slash, dot, dot] by rfl, hx,
      hclean] at hrun
    have hc : (cleanLoop true 2 [dot, dot] (pathClean (slash :: x1)) 1).length ≤
        (pathClean (slash :: x1)).length := by
      rw [cleanLoop_cons, if_neg (by decide), if_neg (by decide), if_pos (by decide)]
      simp only [List.tail_cons]
      split
      · rw [cleanLoop_nil]
        exact List.length_take_le' _ _
      · rw [cleanLoop_nil]
    have e : ([dot, dot] : GoString).length = 2 := rfl
    rw [e] at hrun
    rw [← hrun, ← hx] at hc
    simp only [List.length_append, List.length_cons, List.length_nil] at hc hlen
    omega

/-- On a clean absolute path other than `/`, `path.Dir` is the parent of the
specification. -/
theorem pathDir_clean_eq_specParent (d : GoString) (h : d.head? = some slash)
    (hclean : pathClean d = d) (hne : d ≠ [slash]) : pathDir d = specParent d := by
  rcases pathDir_is_self_or_parent d h (clean_no_dotdot_suffix d h hclean) with hs | hs
  · exfalso
    have := (pathDir_rooted d h hne).2
    rw [hs, hclean] at this
    omega
  · rw [hs, hclean]

/-- From a clean absolute path the iteration of `path.Dir` is the parent chain of the
specification, as long as the root is not reached. -/
theorem pathDir_iterate_eq_specParent (d : GoString) (h : d.head? = some slash)
    (hclean : pathClean d = d) :
    ∀ j, (∀ i, i < j → specParent^[i] d ≠ [slash]) → pathDir^[j] d = specParent^[j] d
  | 0, _ => rfl
  | j + 1, hj => by
    have ih := pathDir_iterate_eq_specParent d h hclean j (fun i hi => hj i (Nat.lt_succ_of_lt hi))
    rw [Function.iterate_succ_apply', Function.iterate_succ_apply', ih]
    have hr := pathDir_iterate_rooted d h j
    have hc := pathDir_iterate_clean d h j (Or.inr hclean)
    rw [ih] at hr hc
    exact pathDir_clean_eq_specParent _ hr hc (hj j (Nat.lt_succ_self j))

/-- The walk from a clean absolute directory returns the `.ahoy.yml` of the nearest
directory of the parent chain that has one. -/
theorem walkUp_clean_nearest (env : Env) (fuel k : Nat) (d : GoString)
    (h : d.head? = some slash) (hclean : pathClean d = d) (hfuel : d.length ≤ fuel)
    (hroot : ∀ j, j ≤ k → specParent^[j] d ≠ [slash])
    (hmiss : ∀ j, j < k → env.stat (specParent^[j] d ++ slash :: ahoyYml) = false)
    (hhit : env.stat (specParent^[k] d ++ slash :: ahoyYml) = true) :
    (walkUp env fuel d).map (·.outcome) =
      some (.ret (specParent^[k] d ++ slash :: ahoyYml, none)) := by
  have hchain : ∀ j, j ≤ k → pathDir^[j] d = specParent^[j] d := fun j hj =>
    pathDir_iterate_eq_specParent d h hclean j (fun i hi => hroot i (by omega))
  have hjoin : ∀ j, j ≤ k →
      filepathJoin [pathDir^[j] d, ahoyYml] = specParent^[j] d ++ slash :: ahoyYml := by
    intro j hj
    have hr := pathDir_iterate_rooted d h j
    have hc := pathDir_iterate_clean d h j (Or.inr hclean)
    rw [hchain j hj] at hr hc ⊢
    exact filepathJoin_clean _ hr hc (hroot j hj)
  rw [walkUp_found env k fuel d h hfuel
    (fun j hj => by rw [hchain j hj]; exact hroot j hj)
    (fun j hj => by rw [hjoin j (Nat.le_of_lt hj)]; exact hmiss j hj)
    (by rw [hjoin k (Nat.le_refl _)]; exact hhit)]
  simp only [Option.map_some', hjoin k (Nat.le_refl _)]

/-- The walk from an absolute directory whose last element is not `..` returns the
`.ahoy.yml` of the nearest directory that has one, on the parent chain of the
directory that the path names. -/
theorem walkUp_nearest (env : Env) (fuel k : Nat) (d : GoString)
    (h : d.head? = some slash) (hlast : ¬ [slash, dot, dot] <:+ d) (hfuel : d.length ≤ fuel)
    (hroot : ∀ j, j ≤ k → specParent^[j] (pathClean d) ≠ [slash])
    (hmiss : ∀ j, j < k → env.stat (specParent^[j] (pathClean d) ++ slash :: ahoyYml) = false)
    (hhit : env.stat (specParent^[k] (pathClean d) ++ slash :: ahoyYml) = true) :
    (walkUp env fuel d).map (·.outcome) =
      some (.ret (specParent^[k] (pathClean d) ++ slash :: ahoyYml, none)) := by
  have hD : pathClean d ≠ [slash] := hroot 0 (Nat.zero_le _)
  have hd : d ≠ [slash] := by
    intro hd
    apply hD
    rw [hd]
    decide
  have hcand : filepathJoin [d, ahoyYml] = pathClean d ++ slash :: ahoyYml :=
    filepathJoin_below_root d h hD
  cases k with
  | zero =>
    rw [walkUp_found env 0 fuel d h hfuel (fun j hj => by
        have : j = 0 := by omega
        subst this
        exact hd)
      (fun j hj => by omega) (by simpa [hcand] using hhit)]
    simp [hcand]
  | succ k =>
    cases fuel with
    | zero =>
      have : d = [] := List.length_eq_zero.mp (Nat.le_zero.mp hfuel)
      rw [this] at h
      cases h
    | succ f =>
      have hs : env.stat (filepathJoin [d, ahoyYml]) = false := by
        rw [hcand]
        exact hmiss 0 (Nat.succ_pos k)
      have hp := pathDir_rooted d h hd
      have hpc := pathDir_clean d h
      have hstep : (walkUp env (f + 1) d).map (·.outcome) =
          (walkUp env f (pathDir d)).map (·.outcome) := by
        rw [walkUp]
        simp only [ne_eq, hd, not_false_eq_true, if_true, hs, Bool.false_eq_true, if_false,
          Option.map_map]
        rfl
      rw [hstep]
      rcases pathDir_is_self_or_parent d h hlast with hself | hpar
      · rw [hself] at hp hpc ⊢
        exact walkUp_clean_nearest env f (k + 1) _ hp.1 hpc (by omega) hroot hmiss hhit
      · have hshift : ∀ j, specParent^[j] (pathDir d) = specParent^[j + 1] (pathClean d) := by
          intro j
          rw [Function.iterate_succ_apply, hpar]
        have := walkUp_clean_nearest env f k (pathDir d) hp.1 hpc (by omega)
          (fun j hj => by rw [hshift]; exact hroot (j + 1) (by omega))
          (fun j hj => by rw [hshift]; exact hmiss (j + 1) (by omega))
          (by rw [hshift]; exact hhit)
        rw [this, hshift]

/-- C3, as amended. With no explicit path and an absolute working directory `d`, the
walk of `getConfigPath` terminates for every state of the file system: `d.length`
iterations are enough and more fuel does not change the result. When the last element
of `d` is not `..` (so for every clean `d`), let `D` be the directory that `d` names,
its cleaned form (`D = d` for a clean `d`): if the `k`-th parent of `D` (`k = 0` is `D`
itself) is the nearest directory of the chain `D`, parent of `D`, ... below the root
that contains `.ahoy.yml`, the function returns that directory followed by
`/.ahoy.yml`, with a nil error, never the file of a more distant ancestor. -/
theorem getConfigPath_walk_nearest (env : Env) (d : GoString) (hwd : env.getwd = .ok d)
    (habs : d.head? = some slash) :
    (∃ r, ∀ fuel, d.length ≤ fuel → getConfigPath env fuel [] = some r) ∧
      (¬ [slash, dot, dot] <:+ d →
        ∀ k, (∀ j, j ≤ k → specParent^[j] (pathClean d) ≠ [slash]) →
          (∀ j, j < k →
            env.stat (specParent^[j] (pathClean d) ++ slash :: ahoyYml) = false) →
          env.stat (specParent^[k] (pathClean d) ++ slash :: ahoyYml) = true →
            ∀ fuel, d.length ≤ fuel →
              (getConfigPath env fuel []).map (·.outcome) =
                some (.ret (specParent^[k] (pathClean d) ++ slash :: ahoyYml, none))) := by
  constructor
  · have hsome := (walkUp_fuel env d.length d.length d habs (Nat.le_refl _) (Nat.le_refl _)).2
    obtain ⟨r, hr⟩ := Option.isSome_iff_exists.mp hsome
    refine ⟨⟨.getwd :: r.trace, r.outcome⟩, ?_⟩
    intro fuel hfuel
    have := (walkUp_fuel env fuel d.length d habs hfuel (Nat.le_refl _)).1
    simp [getConfigPath, hwd, this, hr]
  · intro hlast k hroot hmiss hhit fuel hfuel
    have := walkUp_nearest env fuel k d habs hlast hfuel hroot hmiss hhit
    simp only [getConfigPath, ne_eq, not_true_eq_false, if_false, hwd, Option.map_map]
    rw [← this]
    rfl

/-- C3, the example of the specification: with the configuration at `/a` and the working
directory `/a/b/c` the result is `/a/.ahoy.yml`; the same from `/a//b/c/`. -/
theorem getConfigPath_walk_nearest_witness :
    (getConfigPath ⟨fun p => pathClean p == ascii "/a/.ahoy.yml", .ok (ascii "/a/b/c"),
        fun _ => ([], none), fun _ => .ok Config.zero, fun _ _ => .exited 0⟩ 6 []).map
      (·.outcome) = some (.ret (ascii "/a/.ahoy.yml", none)) ∧
    (getConfigPath ⟨fun p => pathClean p == ascii "/a/.ahoy.yml", .ok (ascii "/a//b/c/"),
        fun _ => ([], none), fun _ => .ok Config.zero, fun _ _ => .exited 0⟩ 8 []).map
      (·.outcome) = some (.ret (ascii "/a/.ahoy.yml", none)) :=
  ⟨(getConfigPath_walk_nearest ⟨fun p => pathClean p == ascii "/a/.ahoy.yml",
      .ok (ascii "/a/b/c"), fun _ => ([], none), fun _ => .ok Config.zero,
      fun _ _ => .exited 0⟩ (ascii "/a/b/c") rfl (by decide)).2 (by decide) 2 (by decide)
      (by decide) (by decide) 6 (by decide),
   (getConfigPath_walk_nearest ⟨fun p => pathClean p == ascii "/a/.ahoy.yml",
      .ok (ascii "/a//b/c/"), fun _ => ([], none), fun _ => .ok Config.zero,
      fun _ _ => .exited 0⟩ (ascii "/a//b/c/") rfl (by decide)).2 (by decide) 2 (by decide)
      (by decide) (by decide) 8 (by decide)⟩

/-- C3 as stated fails. Take the file system with the two files `/a/.ahoy.yml` and
`/a/b/c/.ahoy.yml` and the working directory `/a/b`, which `os.Getwd` reports as
`/a/b/c/..`. The candidate `Join("/a/b/c/..", ".ahoy.yml")` is `/a/b/.ahoy.yml`, which
does not exist, and `path.Dir("/a/b/c/..")` is `/a/b/c`: the walk goes down into the
child `c` and returns `/a/b/c/.ahoy.yml`, although the nearest directory of the chain
`/a/b`, `/a` that contains the file is `/a`. So the statement for every absolute
working directory is false. -/
theorem getConfigPath_dotdot_returns_child :
    getConfigPath ⟨fun p => pathClean p == ascii "/a/.ahoy.yml" ||
          pathClean p == ascii "/a/b/c/.ahoy.yml", .ok (ascii "/a/b/c/.."),
        fun _ => ([], none), fun _ => .ok Config.zero, fun _ _ => .exited 0⟩ 9 [] =
      some ⟨[.getwd, .stat (ascii "/a/b/.ahoy.yml"), .stat (ascii "/a/b/c/.ahoy.yml")],
        .ret (ascii "/a/b/c/.ahoy.yml", none)⟩ ∧
    pathClean (ascii "/a/b/c/..") = ascii "/a/b" ∧
    ¬ (∀ (env : Env) (d : GoString), env.getwd = .ok d → d.head? = some slash →
        ∀ k, (∀ j, j ≤ k → specParent^[j] (pathClean d) ≠ [slash]) →
          (∀ j, j < k →
            env.stat (specParent^[j] (pathClean d) ++ slash :: ahoyYml) = false) →
          env.stat (specParent^[k] (pathClean d) ++ slash :: ahoyYml) = true →
            ∀ fuel, d.length ≤ fuel →
              (getConfigPath env fuel []).map (·.outcome) =
                some (.ret (specParent^[k] (pathClean d) ++ slash :: ahoyYml, none))) := by
  refine ⟨by decide, by decide, ?_⟩
  intro h
  have := h ⟨fun p => pathClean p == ascii "/a/.ahoy.yml" ||
          pathClean p == ascii "/a/b/c/.ahoy.yml", .ok (ascii "/a/b/c/.."),
        fun _ => ([], none), fun _ => .ok Config.zero, fun _ _ => .exited 0⟩
        (ascii "/a/b/c/..") rfl (by decide) 1 (by decide) (by decide) (by decide) 9 (by decide)
  revert this
  decide

/-! ## The set-up in `main` and the user-defined commands -/

theorem lookup_of_mem {β : Type} : ∀ (l : List (GoString × β)), (l.map Prod.fst).Nodup →
    ∀ (k : GoString) (v : β), (k, v) ∈ l → l.lookup k = some v
  | [], _, _, _, h => by cases h
  | (a, b) :: t, hnd, k, v, h => by
    simp only [List.map_cons, List.nodup_cons] at hnd
    rcases List.mem_cons.mp h with h1 | h1
    · simp only [Prod.mk.injEq] at h1
      rw [h1.1, h1.2]
      simp [List.lookup]
    · have hne : k ≠ a := by
        intro e
        apply hnd.1
        rw [← e]
        exact List.mem_map.mpr ⟨(k, v), h1, rfl⟩
      have hb : (k == a) = false := by simpa using hne
      simp only [List.lookup, hb]
      exact lookup_of_mem t hnd.2 k v h1

/-- C4. A user-defined subcommand runs in the directory of the located configuration
file. When `getConfigPath` returns a path `p` and the file parses to `config`, `main`
reaches `app.Run` with `sourcedir` the directory part of `p` and with the commands of
`getCommands config` followed by the built-in one. Every entry `name: cmd` of the
configuration is registered under `name`, and running the registered action with any
trailing arguments starts exactly one process: `bash -c` of the substituted template of
`cmd`, in the directory part of `p`, whatever directory the program was started from;
and every command registered from the configuration is of that kind. For a clean
absolute directory `d`, the directory part of `Join(d, ".ahoy.yml")` is `d`: when the
walk finds the file in `d`, the commands run in `d`. -/
theorem user_command_runs_in_config_dir (env : Env) (g : Globals) :
    (∀ (fuel : Nat) (tr : List Event) (p : GoString) (config : Config),
        getConfigPath env fuel g.sourcefile = some ⟨tr, .ret (p, none)⟩ →
        env.yamlUnmarshal (env.readFile p).1 = .ok config →
          ∃ tr2 app, mainSetup env fuel g = some ⟨tr2, .ret app⟩ ∧
            app.globals.sourcedir = filepathDir p ∧
            app.commands = getCommands config ++ [initCommand] ∧
            (∀ name cmd, (name, cmd) ∈ config.Commands.entries →
              ∃ c, c ∈ app.commands ∧ c.Name = name ∧
                ∀ cargs, spawned (runAction env app.globals cargs c.Action).trace =
                  [(filepathDir p, [ascii "bash", ascii "-c",
                    stringsReplace cmd.Cmd argsToken (stringsJoin cargs (ascii " ")) 1])]) ∧
            (∀ c, c ∈ getCommands config →
              ∃ cmd, (c.Name, cmd) ∈ config.Commands.entries ∧
                ∀ cargs, spawned (runAction env app.globals cargs c.Action).trace =
                  [(filepathDir p, [ascii "bash", ascii "-c",
                    stringsReplace cmd.Cmd argsToken (stringsJoin cargs (ascii " ")) 1])])) ∧
      ∀ d : GoString, d.head? = some slash → pathClean d = d →
        filepathDir (filepathJoin [d, ahoyYml]) = d := by
  constructor
  · intro fuel tr p config hloc hy
    refine ⟨_, _, mainSetup_ok env fuel g tr p config hloc hy, rfl, rfl, ?_, ?_⟩
    · intro name cmd hmem
      have hget : config.Commands.get name = cmd := by
        simp only [CommandMap.get, lookup_of_mem _ config.Commands.nodup name cmd hmem,
          Option.getD_some]
      have hkey : name ∈ sortStrings (config.Commands.entries.map Prod.fst) :=
        (sortStrings_perm _).mem_iff.mpr (List.mem_map.mpr ⟨(name, cmd), hmem, rfl⟩)
      have hreg : (⟨name, cmd.Usage, cmd.SkipFlagParsing, cmd.HideHelp,
          .user name cmd.Cmd⟩ : CliCommand) ∈ getCommands config := by
        simp only [getCommands, List.mem_map]
        exact ⟨name, hkey, by rw [hget]⟩
      refine ⟨_, List.mem_append_left _ hreg, rfl, ?_⟩
      intro cargs
      simp only [runAction, runCommand_spawned]
    · intro c hc
      simp only [getCommands, List.mem_map] at hc
      obtain ⟨name, hkey, hcdef⟩ := hc
      have hk : name ∈ config.Commands.entries.map Prod.fst :=
        (sortStrings_perm _).mem_iff.mp hkey
      obtain ⟨⟨n, cmd⟩, hmem, hn⟩ := List.mem_map.mp hk
      simp only at hn
      subst hn
      have hget : config.Commands.get n = cmd := by
        simp only [CommandMap.get, lookup_of_mem _ config.Commands.nodup n cmd hmem,
          Option.getD_some]
      rw [hget] at hcdef
      subst hcdef
      refine ⟨cmd, hmem, ?_⟩
      intro cargs
      simp only [runAction, runCommand_spawned]
  · intro d habs hclean
    cases d with
    | nil => cases habs
    | cons b r =>
      simp only [List.head?_cons, Option.some.injEq] at habs
      subst habs
      rw [filepathDir_join_rooted, hclean, hclean]

/-- C4 on a concrete run: started in `/a/b/c` with the configuration in `/a` that
defines `greet`, the set-up registers `greet`, and `greet world` starts
`bash -c "echo hello world"` in `/a`. -/
theorem user_command_runs_in_config_dir_witness :
    ∃ tr2 app,
      mainSetup
        ⟨fun p => p == ascii "/a/.ahoy.yml", .ok (ascii "/a/b/c"), fun _ => (ascii "x", none),
          fun _ => .ok ⟨[], ⟨[(ascii "greet",
            ⟨[], [], ascii "echo hello \x7b\x7bargs\x7d\x7d", false, false⟩)], by decide⟩⟩,
          fun _ _ => .exited 0⟩ 6 ⟨[], [], [], false⟩ = some ⟨tr2, .ret app⟩ ∧
      ∃ c, c ∈ app.commands ∧ c.Name = ascii "greet" ∧
        spawned (runAction
          ⟨fun p => p == ascii "/a/.ahoy.yml", .ok (ascii "/a/b/c"), fun _ => (ascii "x", none),
            fun _ => .ok ⟨[], ⟨[(ascii "greet",
              ⟨[], [], ascii "echo hello \x7b\x7bargs\x7d\x7d", false, false⟩)], by decide⟩⟩,
            fun _ _ => .exited 0⟩ app.globals [ascii "world"] c.Action).trace =
          [(ascii "/a", [ascii "bash", ascii "-c", ascii "echo hello world"])] := by
  obtain ⟨tr2, app, hsetup, _, _, hentry, _⟩ := (user_command_runs_in_config_dir
    ⟨fun p => p == ascii "/a/.ahoy.yml", .ok (ascii "/a/b/c"), fun _ => (ascii "x", none),
      fun _ => .ok ⟨[], ⟨[(ascii "greet",
        ⟨[], [], ascii "echo hello \x7b\x7bargs\x7d\x7d", false, false⟩)], by decide⟩⟩,
      fun _ _ => .exited 0⟩ ⟨[], [], [], false⟩).1 6
    [.getwd, .stat (ascii "/a/b/c/.ahoy.yml"), .stat (ascii "/a/b/.ahoy.yml"),
      .stat (ascii "/a/.ahoy.yml")]
    (ascii "/a/.ahoy.yml")
    ⟨[], ⟨[(ascii "greet",
      ⟨[], [], ascii "echo hello \x7b\x7bargs\x7d\x7d", false, false⟩)], by decide⟩⟩
    (by decide) rfl
  obtain ⟨c, hc, hname, hrun⟩ := hentry (ascii "greet")
    ⟨[], [], ascii "echo hello \x7b\x7bargs\x7d\x7d", false, false⟩ (by decide)
  refine ⟨tr2, app, hsetup, c, hc, hname, ?_⟩
  rw [hrun [ascii "world"]]
  decide

end Ahoy
